import Mathlib

/-!
Shallow embedding of the core logic of `app.py` (lender-guideline chat tool):
lender-name parsing and normalization, the PDF index, the upload cache with
modification-time keying, the provider readiness wait, and the query pipeline
of `main_chat_interface`.  Strings are modelled as `List Char`; the two regular
expressions of the source (`LENDER_SPLIT_PATTERN` and the parenthesized-group
search in `parse_lenders_and_question`) are modelled by explicit scanners with
the same leftmost-match semantics.
-/

namespace LexAi

/-- ASCII whitespace, as matched by `\s` and `str.strip` on ASCII text. -/
def isWs (c : Char) : Bool :=
  c = ' ' || c = '\t' || c = '\n' || c = '\r' || c = Char.ofNat 11 || c = Char.ofNat 12

/-- ASCII word character, as matched by `\w` (used for `\b` boundaries). -/
def isWordChar (c : Char) : Bool :=
  ('a' ≤ c && c ≤ 'z') || ('A' ≤ c && c ≤ 'Z') || ('0' ≤ c && c ≤ '9') || c = '_'

/-- Lower-case letter or digit, the characters kept by `normalize_lender_key`. -/
def isLowerAlnum (c : Char) : Bool :=
  ('a' ≤ c && c ≤ 'z') || ('0' ≤ c && c ≤ '9')

/-- `value.lower()` followed by `re.sub(r"[^a-z0-9]", "", ·)` from `app.py`. -/
def normalize_lender_key (value : List Char) : List Char :=
  (value.map Char.toLower).filter isLowerAlnum

/-- Right strip: drop trailing whitespace. -/
def rstrip (l : List Char) : List Char :=
  (l.reverse.dropWhile isWs).reverse

/-- Python `str.strip()`: drop leading and trailing whitespace. -/
def pyStrip (l : List Char) : List Char :=
  rstrip (l.dropWhile isWs)

/-- Number of leading whitespace characters (what a greedy `\s*` consumes). -/
def wsCount : List Char → Nat
  | [] => 0
  | c :: r => if isWs c then wsCount r + 1 else 0

/-- `\b` before a word character: holds at string start or after a non-word
character.  `prev` is the character immediately before the position. -/
def boundaryOk (prev : Option Char) : Bool :=
  match prev with
  | none => true
  | some c => !isWordChar c

/-- `\b` after a word character: holds at string end or before a non-word
character. -/
def afterOk (l : List Char) : Bool :=
  match l.head? with
  | none => true
  | some c => !isWordChar c

/-- One of the four single-character delimiters of `LENDER_SPLIT_PATTERN`. -/
def isDelimChar (c : Char) : Bool :=
  c = ',' || c = '/' || c = '&' || c = '+'

/-- The alternation `(?:,|/|&|\band\b|\bor\b|\+)` of `LENDER_SPLIT_PATTERN`
(case-insensitive), tried at the head of `l`; `prev` is the character before
the current position (for the word boundaries).  Returns the number of
characters the alternation consumes. -/
def altMatch (prev : Option Char) (l : List Char) : Option Nat :=
  match l with
  | [] => none
  | c :: rest =>
    if isDelimChar c then some 1
    else if c.toLower = 'a' then
      match rest with
      | c2 :: c3 :: rest2 =>
        if c2.toLower = 'n' && c3.toLower = 'd' && boundaryOk prev && afterOk rest2 then
          some 3
        else none
      | _ => none
    else if c.toLower = 'o' then
      match rest with
      | c2 :: rest2 =>
        if c2.toLower = 'r' && boundaryOk prev && afterOk rest2 then some 2 else none
      | _ => none
    else none

/-- A match of the full pattern `\s*(?:,|/|&|\band\b|\bor\b|\+)\s*` at the head
of `l`: greedy leading whitespace, the alternation, greedy trailing whitespace.
Returns the total length of the match.  The greedy `\s*` never backtracks
usefully here because no alternative starts with a whitespace character. -/
def matchLen (prev : Option Char) (l : List Char) : Option Nat :=
  let k := wsCount l
  let rest := l.drop k
  let prev2 := if k = 0 then prev else (l.take k).getLast?
  match altMatch prev2 rest with
  | none => none
  | some a => some (k + a + wsCount (rest.drop a))

/-- `re.split` scanner for `LENDER_SPLIT_PATTERN`: walk the string left to
right; at each position either a match of the pattern starts (ending the
current piece) or the character joins the current piece.  `fuel` only bounds
the recursion; every call site supplies `fuel ≥ rem.length`, which is always
sufficient because each step consumes at least one character. -/
def splitGo : Nat → Option Char → List Char → List Char → List (List Char)
  | _, _, cur, [] => [cur.reverse]
  | 0, _, cur, rem => [cur.reverse ++ rem]
  | fuel + 1, prev, cur, c :: rest =>
    match matchLen prev (c :: rest) with
    | none => splitGo fuel (some c) (c :: cur) rest
    | some n =>
      cur.reverse :: splitGo fuel ((c :: rest).take n).getLast? [] ((c :: rest).drop n)

/-- `LENDER_SPLIT_PATTERN.split(s)`. -/
def splitPat (s : List Char) : List (List Char) :=
  splitGo s.length none [] s

/-- `re.search(r"\(([^)]+)\)", s)`: leftmost occurrence of a `(` followed by a
nonempty run of non-`)` characters and a `)`.  Returns the text before the
match, the group interior, and the text after the match.  `acc` carries the
already-scanned text reversed. -/
def findGroupGo : List Char → List Char → Option (List Char × List Char × List Char)
  | _, [] => none
  | acc, c :: rest =>
    if c = '(' then
      let k := (rest.takeWhile (fun d => !(d = ')'))).length
      if 0 < k && k < rest.length then
        some (acc.reverse, rest.take k, rest.drop (k + 1))
      else findGroupGo (c :: acc) rest
    else findGroupGo (c :: acc) rest

/-- Tokens from the interior of the parenthesized group: split on the
delimiter pattern, strip each piece, drop empty pieces. -/
def tokenizeLenders (seg : List Char) : List (List Char) :=
  ((splitPat seg).map pyStrip).filter (fun t => !t.isEmpty)

/-- `parse_lenders_and_question` from `app.py`: the first parenthesized group
is the lender list; the question is the text before plus the text after the
group, stripped.  Without a group the lender list is empty and the stripped
input is the question. -/
def parse_lenders_and_question (raw : List Char) : List (List Char) × List Char :=
  match findGroupGo [] raw with
  | none => ([], pyStrip raw)
  | some (before, seg, after) => (tokenizeLenders seg, pyStrip (before ++ after))

/-! ### Lender index and resolution -/

/-- Association-list lookup, first binding wins (bindings are kept unique by
`insertKey`, mirroring a Python dict). -/
def lookupIndex : List (List Char × List Char) → List Char → Option (List Char)
  | [], _ => none
  | (k, v) :: rest, key => if k = key then some v else lookupIndex rest key

/-- Python dict assignment `m[k] = v`: replace the existing binding or append. -/
def insertKey : List (List Char × List Char) → List Char → List Char → List (List Char × List Char)
  | [], k, v => [(k, v)]
  | (k0, v0) :: rest, k, v =>
    if k0 = k then (k, v) :: rest else (k0, v0) :: insertKey rest k v

/-- First-defined alternative on options (used to state last-write-wins). -/
def optOr {α : Type} : Option α → Option α → Option α
  | some x, _ => some x
  | none, b => b

/-- Lexicographic order on code points, as Python compares strings. -/
def lexLe : List Char → List Char → Bool
  | [], _ => true
  | _ :: _, [] => false
  | a :: as, b :: bs => if a = b then lexLe as bs else decide (a < b)

/-- Stable insertion into a sorted list. -/
def insortFile (f : List Char) : List (List Char) → List (List Char)
  | [] => [f]
  | g :: rest => if lexLe f g then f :: g :: rest else g :: insortFile f rest

/-- `sorted(...)` on file names. -/
def sortFiles (files : List (List Char)) : List (List Char) :=
  files.foldr insortFile []

/-- `pathlib` stem of a name ending in `.pdf`: the name minus the extension,
except that a bare `.pdf` dotfile is its own stem. -/
def stemOf (f : List Char) : List Char :=
  if f.take (f.length - 4) = [] then f else f.take (f.length - 4)

/-- `index_lender_pdfs` from `app.py`: empty map when the directory does not
exist; otherwise fold dict assignment over the files sorted by name, so a
later file whose stem normalizes to an existing key overwrites it.  The
directory listing is abstracted as the flag `dirExists` and the list `files`
of file names matching `*.pdf`. -/
def index_lender_pdfs (dirExists : Bool) (files : List (List Char)) :
    List (List Char × List Char) :=
  if dirExists then
    (sortFiles files).foldl (fun m f => insertKey m (normalize_lender_key (stemOf f)) f) []
  else []

/-- `find_lender_files` from `app.py`: resolve each token through the index,
collecting matches (token, path) and misses in input order. -/
def find_lender_files (lenders : List (List Char)) (index : List (List Char × List Char)) :
    List (List Char × List Char) × List (List Char) :=
  match lenders with
  | [] => ([], [])
  | l :: ls =>
    let rest := find_lender_files ls index
    match lookupIndex index (normalize_lender_key l) with
    | some p => ((l, p) :: rest.1, rest.2)
    | none => (rest.1, l :: rest.2)

/-! ### Readiness wait (`wait_for_file_active`) -/

/-- Outcome of `wait_for_file_active`: the `TimeoutError`, the `RuntimeError`
raised for a non-ACTIVE terminal state (carrying that state name), or success
carrying the number of polls performed (0 = the handle was returned as given). -/
inductive WaitResult where
  | timeout : WaitResult
  | rejected : List Char → WaitResult
  | ok : Nat → WaitResult
  deriving DecidableEq

/-- The state name PROCESSING. -/
def processingName : List Char :=
  'P' :: 'R' :: 'O' :: 'C' :: 'E' :: 'S' :: 'S' :: 'I' :: 'N' :: 'G' :: []

/-- The state name ACTIVE. -/
def activeName : List Char :=
  'A' :: 'C' :: 'T' :: 'I' :: 'V' :: 'E' :: []

/-- The loop of `wait_for_file_active`.  `st i` is the state name reported by
the handle after `i` refreshes (`none` models a missing or falsy `state`
attribute); each loop iteration sleeps 2 time units, so the elapsed time at
iteration `i` is `2 * i`.  `fuel` only bounds recursion; the initial fuel
`timeout + 1` exceeds the greatest possible number of iterations. -/
def waitLoop (st : Nat → Option (List Char)) (timeout : Nat) :
    Nat → Nat → WaitResult
  | 0, i =>
    match st i with
    | some s =>
      if s = processingName then WaitResult.timeout
      else if s = activeName then WaitResult.ok i
      else WaitResult.rejected s
    | none => WaitResult.ok i
  | fuel2 + 1, i =>
    match st i with
    | some s =>
      if s = processingName then
        if timeout < 2 * i then WaitResult.timeout
        else waitLoop st timeout fuel2 (i + 1)
      else if s = activeName then WaitResult.ok i
      else WaitResult.rejected s
    | none => WaitResult.ok i

/-- `wait_for_file_active` from `app.py`: poll while the state is PROCESSING,
raising `TimeoutError` once the elapsed time exceeds `timeout` (default 120);
after the loop, a present state other than ACTIVE raises `RuntimeError`. -/
def wait_for_file_active (st : Nat → Option (List Char)) (timeout : Nat := 120) : WaitResult :=
  waitLoop st timeout (timeout + 1) 0

/-! ### Upload cache (`upload_pdf_with_cache`) -/

/-- Error from the provider upload or the readiness wait. -/
inductive UploadError where
  | timedOut : UploadError
  | rejected : List Char → UploadError
  deriving DecidableEq

deriving instance DecidableEq for Except

/-- One cache entry: the provider file handle (abstracted by a number) and the
modification time recorded at upload. -/
structure CacheEntry where
  file : Nat
  mtime : Nat
  deriving DecidableEq

/-- The session upload cache, keyed by resolved absolute path. -/
def Cache := List (List Char × CacheEntry)

/-- `cache.get(path_key)`. -/
def cacheGet : List (List Char × CacheEntry) → List Char → Option CacheEntry
  | [], _ => none
  | (k, e) :: rest, key => if k = key then some e else cacheGet rest key

/-- `cache[path_key] = {...}`. -/
def cacheSet : List (List Char × CacheEntry) → List Char → CacheEntry →
    List (List Char × CacheEntry)
  | [], k, e => [(k, e)]
  | (k0, e0) :: rest, k, e =>
    if k0 = k then (k, e) :: rest else (k0, e0) :: cacheSet rest k e

/-- Result of one `upload_pdf_with_cache` call: the cache afterwards, the
returned handle or the propagated exception, and how many provider upload
calls (`genai.upload_file`) were made (0 on a cache hit, 1 otherwise). -/
structure UploadOutcome where
  cache : List (List Char × CacheEntry)
  result : Except UploadError Nat
  uploadCalls : Nat
  deriving DecidableEq

/-- `upload_pdf_with_cache` from `app.py`.  `pathKey` is the resolved absolute
path, `mtime` the current on-disk modification time; `upl` is the combined
outcome the provider would give this call for `genai.upload_file` followed by
`wait_for_file_active` (a fresh handle, or the exception raised).  On a hit
with matching mtime the cached handle is returned with no provider call; on an
error the exception propagates before the cache assignment, leaving the cache
unchanged. -/
def upload_pdf_with_cache (cache : List (List Char × CacheEntry)) (pathKey : List Char)
    (mtime : Nat) (upl : Except UploadError Nat) : UploadOutcome :=
  match cacheGet cache pathKey with
  | some entry =>
    if entry.mtime = mtime then ⟨cache, Except.ok entry.file, 0⟩
    else
      match upl with
      | Except.error e => ⟨cache, Except.error e, 1⟩
      | Except.ok h => ⟨cacheSet cache pathKey ⟨h, mtime⟩, Except.ok h, 1⟩
  | none =>
    match upl with
    | Except.error e => ⟨cache, Except.error e, 1⟩
    | Except.ok h => ⟨cacheSet cache pathKey ⟨h, mtime⟩, Except.ok h, 1⟩

/-! ### Query pipeline (`main_chat_interface`, lines 713-749) -/

/-- Error kinds raised inside the query `try` block. -/
inductive QueryError where
  | noLenders : QueryError
  | noQuestion : QueryError
  | lendersNotFound : List (List Char) → QueryError
  | noModel : QueryError
  | uploadFailed : UploadError → QueryError
  deriving DecidableEq

/-- One `log_interaction` entry: prompt, response text (absent on error) and
the error (absent on success).  The error value stands for the logged
`str(exc)` text. -/
structure LogEntry where
  prompt : List Char
  response : Option (List Char)
  error : Option QueryError
  deriving DecidableEq

/-- Outcome of one submitted query: the answer or error shown to the user,
whether the upload phase was entered, whether the model was called, and the
appended log entry. -/
structure QueryOutcome where
  result : Except QueryError (List Char)
  uploadAttempted : Bool
  modelCalled : Bool
  log : LogEntry
  deriving DecidableEq

/-- The fixed fallback sentence substituted for an empty model response in
`answer_with_gemini`. -/
def fallbackText : List Char :=
  ('I' :: ' ' :: 'a' :: 'p' :: 'o' :: 'l' :: 'o' :: 'g' :: 'i' :: 'z' :: 'e' :: ',' :: ' ' ::
   'b' :: 'u' :: 't' :: ' ' :: 'I' :: ' ' :: 'c' :: 'o' :: 'u' :: 'l' :: 'd' :: 'n' :: '\'' ::
   't' :: ' ' :: 'g' :: 'e' :: 'n' :: 'e' :: 'r' :: 'a' :: 't' :: 'e' :: ' ' :: 'a' :: ' ' ::
   'r' :: 'e' :: 's' :: 'p' :: 'o' :: 'n' :: 's' :: 'e' :: '.' :: ' ' :: 'P' :: 'l' :: 'e' ::
   'a' :: 's' :: 'e' :: ' ' :: 't' :: 'r' :: 'y' :: ' ' :: 'r' :: 'e' :: 'p' :: 'h' :: 'r' ::
   'a' :: 's' :: 'i' :: 'n' :: 'g' :: ' ' :: 'y' :: 'o' :: 'u' :: 'r' :: ' ' :: 'q' :: 'u' ::
   'e' :: 's' :: 't' :: 'i' :: 'o' :: 'n' :: '.' :: [])

/-- The response-text handling of `answer_with_gemini`:
`(response.text or "").strip()`, replaced by the fallback sentence if empty.
`rt` is `none` when `response.text` is `None`. -/
def answerText (rt : Option (List Char)) : List Char :=
  let t := pyStrip (rt.getD [])
  if t = [] then fallbackText else t

/-- The lender tokens the query effectively uses: the parsed parenthesized
tokens, or the sidebar selection when the parse found none. -/
def effectiveLenders (prompt : List Char) (selected : List (List Char)) : List (List Char) :=
  if (parse_lenders_and_question prompt).1 = [] && !selected.isEmpty then selected
  else (parse_lenders_and_question prompt).1

/-- The question text the query effectively uses: the parsed question, or the
whole stripped prompt when the lender list came from the sidebar selection. -/
def effectiveQuestion (prompt : List Char) (selected : List (List Char)) : List Char :=
  if (parse_lenders_and_question prompt).1 = [] && !selected.isEmpty then pyStrip prompt
  else (parse_lenders_and_question prompt).2

/-- The query `try` block of `main_chat_interface`: parse, fall back to the
sidebar selection, guard on lenders, question, resolution and model name, then
answer.  `upl` abstracts whether the upload phase succeeds; `rt` is the model
response text.  Uploads and the model call happen only after every guard
passes; each error is logged with empty response, success is logged with the
answer and no error. -/
def runQuery (prompt : List Char) (selected : List (List Char))
    (index : List (List Char × List Char)) (modelName : List Char)
    (upl : Except UploadError Unit) (rt : Option (List Char)) : QueryOutcome :=
  let lenders := effectiveLenders prompt selected
  let question := effectiveQuestion prompt selected
  if lenders = [] then
    ⟨Except.error QueryError.noLenders, false, false, ⟨prompt, none, some QueryError.noLenders⟩⟩
  else if question = [] then
    ⟨Except.error QueryError.noQuestion, false, false, ⟨prompt, none, some QueryError.noQuestion⟩⟩
  else
    let fm := find_lender_files lenders index
    if fm.2 ≠ [] then
      ⟨Except.error (QueryError.lendersNotFound fm.2), false, false,
        ⟨prompt, none, some (QueryError.lendersNotFound fm.2)⟩⟩
    else if modelName = [] then
      ⟨Except.error QueryError.noModel, false, false, ⟨prompt, none, some QueryError.noModel⟩⟩
    else
      match upl with
      | Except.error e =>
        ⟨Except.error (QueryError.uploadFailed e), true, false,
          ⟨prompt, none, some (QueryError.uploadFailed e)⟩⟩
      | Except.ok _ =>
        let text := answerText rt
        ⟨Except.ok text, true, true, ⟨prompt, some text, none⟩⟩

/-! ### Model of well-behaved lender lists (for the token-recovery property)

A lender-list string is a first name followed by (delimiter, name) pairs.
A delimiter is optional whitespace, one of the supported cores, and optional
whitespace; for the word cores `and` / `or` the surrounding whitespace must be
nonempty, because `\b` blocks a bare word delimiter between word characters.
A well-behaved name is nonempty, free of parentheses and single-character
delimiters, has no edge whitespace, and contains the words `and` / `or`
(case-insensitively) only directly adjacent to a word character. -/

/-- A delimiter core: one of the punctuation delimiters, or the word `and` or
`or` in some mix of upper and lower case (the pattern is case-insensitive). -/
inductive DCore where
  | comma : DCore
  | slash : DCore
  | amp : DCore
  | plus : DCore
  | wordAnd : Char → Char → Char → DCore
  | wordOr : Char → Char → DCore

/-- The characters of a delimiter core. -/
def renderCore : DCore → List Char
  | DCore.comma => [',']
  | DCore.slash => ['/']
  | DCore.amp => ['&']
  | DCore.plus => ['+']
  | DCore.wordAnd c1 c2 c3 => [c1, c2, c3]
  | DCore.wordOr c1 c2 => [c1, c2]

/-- Whether a core is one of the word delimiters. -/
def coreIsWord : DCore → Bool
  | DCore.wordAnd _ _ _ => true
  | DCore.wordOr _ _ => true
  | _ => false

/-- The carried characters spell the word, case-insensitively. -/
def coreOkB : DCore → Bool
  | DCore.wordAnd c1 c2 c3 => c1.toLower = 'a' && c2.toLower = 'n' && c3.toLower = 'd'
  | DCore.wordOr c1 c2 => c1.toLower = 'o' && c2.toLower = 'r'
  | _ => true

/-- One delimiter occurrence: surrounding whitespace and a core. -/
structure Delim where
  ws1 : List Char
  core : DCore
  ws2 : List Char

/-- The characters of a delimiter occurrence. -/
def renderDelim (d : Delim) : List Char :=
  d.ws1 ++ renderCore d.core ++ d.ws2

/-- A supported delimiter: whitespace padding on both sides, a well-formed
core, and nonempty padding when the core is a word (a bare word delimiter
directly between word characters is not matched by `\b...\b`). -/
def delimOkB (d : Delim) : Bool :=
  d.ws1.all isWs && d.ws2.all isWs && coreOkB d.core &&
    (!coreIsWord d.core || (!d.ws1.isEmpty && !d.ws2.isEmpty))

/-- Length of the word `and` or `or` read case-insensitively at position `i`
of `n`, if one starts there. -/
def andOrAt (n : List Char) (i : Nat) : Option Nat :=
  if ((n.drop i).take 3).map Char.toLower = ['a', 'n', 'd'] then some 3
  else if ((n.drop i).take 2).map Char.toLower = ['o', 'r'] then some 2
  else none

/-- Whether position `i` of `n` holds a word character. -/
def wordCharAt (n : List Char) (i : Nat) : Bool :=
  match n.get? i with
  | some c => isWordChar c
  | none => false

/-- A word occurrence at position `i` with length `len` is protected when a
word character is directly adjacent on one side, so one of the two `\b`
boundaries fails inside the name. -/
def protectedAt (n : List Char) (i len : Nat) : Bool :=
  (decide (0 < i) && wordCharAt n (i - 1)) || wordCharAt n (i + len)

/-- A well-behaved lender name (see the section comment). -/
def goodNameB (n : List Char) : Bool :=
  !n.isEmpty &&
  n.all (fun c => !isDelimChar c && !(c = '(') && !(c = ')')) &&
  (match n.head? with | some c => !isWs c | none => true) &&
  (match n.getLast? with | some c => !isWs c | none => true) &&
  (List.range n.length).all (fun i =>
    match andOrAt n i with
    | some len => protectedAt n i len
    | none => true)

/-- The delimiter-name pairs after the first name, rendered. -/
def renderTail : List (Delim × List Char) → List Char
  | [] => []
  | (d, n) :: rest => renderDelim d ++ n ++ renderTail rest

/-- A lender list joined from a first name and (delimiter, name) pairs. -/
def renderQuery (n0 : List Char) (rest : List (Delim × List Char)) : List Char :=
  n0 ++ renderTail rest

/-- The character before the current scan position: the last character of the
consumed text `u`, or the ambient previous character when nothing is consumed. -/
def prevAt (u : List Char) (p : Option Char) : Option Char :=
  match u.getLast? with
  | some c => some c
  | none => p

/-- What the scanner needs from the text following a name: it must not start
with a letter that could extend a straddling `and` / `or` occurrence.  Both
the empty tail and any delimiter-initial tail satisfy this. -/
def tailOkB : List Char → Bool
  | [] => true
  | c :: _ => !(c.toLower = 'n') && !(c.toLower = 'd') && !(c.toLower = 'r')

/-! ### Helper lemmas: upload cache -/

theorem cacheGet_cacheSet_self (cache : List (List Char × CacheEntry)) (k : List Char)
    (e : CacheEntry) : cacheGet (cacheSet cache k e) k = some e := by
  induction cache with
  | nil => simp [cacheSet, cacheGet]
  | cons p rest ih =>
    by_cases h : p.1 = k
    · simp [cacheSet, cacheGet, h]
    · simp [cacheSet, cacheGet, h, ih]

/-! ### C10, C3: the upload cache -/

/-- C10: `upload_pdf_with_cache` is atomic with respect to the cache on
failure: when the provider upload or readiness wait raises, the exception
propagates, the cache is left unchanged, and every prior entry is still
readable. -/
theorem upload_pdf_with_cache_error_atomic (cache : List (List Char × CacheEntry))
    (pathKey : List Char) (mtime : Nat) (e : UploadError) :
    (upload_pdf_with_cache cache pathKey mtime (Except.error e)).cache = cache ∧
    (∀ k, cacheGet (upload_pdf_with_cache cache pathKey mtime (Except.error e)).cache k
      = cacheGet cache k) ∧
    ((upload_pdf_with_cache cache pathKey mtime (Except.error e)).result = Except.error e ∨
      (upload_pdf_with_cache cache pathKey mtime (Except.error e)).uploadCalls = 0) := by
  unfold upload_pdf_with_cache
  cases h : cacheGet cache pathKey with
  | none => simp
  | some entry =>
    by_cases hm : entry.mtime = mtime <;> simp [hm]

/-- C3: upload deduplication.  Starting with no cache entry for the path, the
first call uploads once and stores the handle; a second call with unchanged
modification time returns the cached handle with no provider call and an
unchanged cache; a second call with a changed modification time uploads again
and replaces the entry. -/
theorem upload_pdf_with_cache_dedup (cache : List (List Char × CacheEntry))
    (pathKey : List Char) (m m2 h h2 : Nat)
    (hmiss : cacheGet cache pathKey = none) (hm2 : m2 ≠ m) :
    (upload_pdf_with_cache cache pathKey m (Except.ok h)).uploadCalls = 1 ∧
    (upload_pdf_with_cache cache pathKey m (Except.ok h)).result = Except.ok h ∧
    (upload_pdf_with_cache
        (upload_pdf_with_cache cache pathKey m (Except.ok h)).cache pathKey m
        (Except.ok h2)).uploadCalls = 0 ∧
    (upload_pdf_with_cache
        (upload_pdf_with_cache cache pathKey m (Except.ok h)).cache pathKey m
        (Except.ok h2)).result = Except.ok h ∧
    (upload_pdf_with_cache
        (upload_pdf_with_cache cache pathKey m (Except.ok h)).cache pathKey m
        (Except.ok h2)).cache
      = (upload_pdf_with_cache cache pathKey m (Except.ok h)).cache ∧
    (upload_pdf_with_cache
        (upload_pdf_with_cache cache pathKey m (Except.ok h)).cache pathKey m2
        (Except.ok h2)).uploadCalls = 1 ∧
    (upload_pdf_with_cache
        (upload_pdf_with_cache cache pathKey m (Except.ok h)).cache pathKey m2
        (Except.ok h2)).result = Except.ok h2 ∧
    cacheGet (upload_pdf_with_cache
        (upload_pdf_with_cache cache pathKey m (Except.ok h)).cache pathKey m2
        (Except.ok h2)).cache pathKey = some ⟨h2, m2⟩ := by
  have h1 : upload_pdf_with_cache cache pathKey m (Except.ok h)
      = ⟨cacheSet cache pathKey ⟨h, m⟩, Except.ok h, 1⟩ := by
    unfold upload_pdf_with_cache
    rw [hmiss]
  have hget : cacheGet (cacheSet cache pathKey ⟨h, m⟩) pathKey = some ⟨h, m⟩ :=
    cacheGet_cacheSet_self cache pathKey ⟨h, m⟩
  have h2same : upload_pdf_with_cache (cacheSet cache pathKey ⟨h, m⟩) pathKey m (Except.ok h2)
      = ⟨cacheSet cache pathKey ⟨h, m⟩, Except.ok h, 0⟩ := by
    unfold upload_pdf_with_cache
    rw [hget]
    simp
  have h2diff : upload_pdf_with_cache (cacheSet cache pathKey ⟨h, m⟩) pathKey m2 (Except.ok h2)
      = ⟨cacheSet (cacheSet cache pathKey ⟨h, m⟩) pathKey ⟨h2, m2⟩, Except.ok h2, 1⟩ := by
    unfold upload_pdf_with_cache
    rw [hget]
    simp [hm2.symm]
  refine ⟨by rw [h1], by rw [h1], ?_, ?_, ?_, ?_, ?_, ?_⟩ <;>
    simp [h1, h2same, h2diff, cacheGet_cacheSet_self]

/-- Witness for C3 at a concrete cache, path, times and handles. -/
theorem upload_pdf_with_cache_dedup_witness :
    (upload_pdf_with_cache [] ['p'] 1 (Except.ok 10)).uploadCalls = 1 ∧
    (upload_pdf_with_cache [] ['p'] 1 (Except.ok 10)).result = Except.ok 10 ∧
    (upload_pdf_with_cache (upload_pdf_with_cache [] ['p'] 1 (Except.ok 10)).cache ['p'] 1
      (Except.ok 11)).uploadCalls = 0 ∧
    (upload_pdf_with_cache (upload_pdf_with_cache [] ['p'] 1 (Except.ok 10)).cache ['p'] 1
      (Except.ok 11)).result = Except.ok 10 ∧
    (upload_pdf_with_cache (upload_pdf_with_cache [] ['p'] 1 (Except.ok 10)).cache ['p'] 1
      (Except.ok 11)).cache = (upload_pdf_with_cache [] ['p'] 1 (Except.ok 10)).cache ∧
    (upload_pdf_with_cache (upload_pdf_with_cache [] ['p'] 1 (Except.ok 10)).cache ['p'] 2
      (Except.ok 11)).uploadCalls = 1 ∧
    (upload_pdf_with_cache (upload_pdf_with_cache [] ['p'] 1 (Except.ok 10)).cache ['p'] 2
      (Except.ok 11)).result = Except.ok 11 ∧
    cacheGet (upload_pdf_with_cache (upload_pdf_with_cache [] ['p'] 1 (Except.ok 10)).cache
      ['p'] 2 (Except.ok 11)).cache ['p'] = some ⟨11, 2⟩ :=
  upload_pdf_with_cache_dedup [] ['p'] 1 2 10 11 (by decide) (by decide)

/-! ### Helper lemmas: readiness wait -/

theorem waitLoop_timeout (st : Nat → Option (List Char)) (timeout : Nat) :
    ∀ fuel i, (∀ j, 2 * j ≤ timeout + 2 → st j = some processingName) →
      2 * i ≤ timeout + 2 → timeout + 1 ≤ fuel + 2 * i →
      waitLoop st timeout fuel i = WaitResult.timeout := by
  intro fuel
  induction fuel with
  | zero =>
    intro i hst hle hf
    have hproc := hst i hle
    unfold waitLoop
    rw [hproc]
    simp
  | succ fuel2 ih =>
    intro i hst hle hf
    have hproc := hst i hle
    unfold waitLoop
    rw [hproc]
    simp only [if_pos rfl]
    by_cases hlt : timeout < 2 * i
    · simp [hlt]
    · have h2 : 2 * (i + 1) ≤ timeout + 2 := by omega
      rw [if_neg hlt]
      exact ih (i + 1) hst h2 (by omega)

theorem waitLoop_skip (st : Nat → Option (List Char)) (timeout : Nat) :
    ∀ n fuel i, (∀ j, j < n → st (i + j) = some processingName) →
      (∀ j, j < n → 2 * (i + j) ≤ timeout) → n ≤ fuel →
      waitLoop st timeout fuel i = waitLoop st timeout (fuel - n) (i + n) := by
  intro n
  induction n with
  | zero => intro fuel i _ _ _; simp
  | succ n2 ih =>
    intro fuel i hst hto hle
    have hproc : st i = some processingName := by
      have := hst 0 (Nat.succ_pos n2)
      simpa using this
    have hti : 2 * i ≤ timeout := by
      have := hto 0 (Nat.succ_pos n2)
      simpa using this
    obtain ⟨fuel2, rfl⟩ : ∃ f, fuel = f + 1 := ⟨fuel - 1, by omega⟩
    have hstep : waitLoop st timeout (fuel2 + 1) i = waitLoop st timeout fuel2 (i + 1) := by
      conv_lhs => rw [waitLoop]
      rw [hproc]
      simp [show ¬ timeout < 2 * i by omega]
    rw [hstep]
    have h1 : ∀ j, j < n2 → st (i + 1 + j) = some processingName := by
      intro j hj
      have := hst (j + 1) (by omega)
      rw [show i + (j + 1) = i + 1 + j by omega] at this
      exact this
    have h2 : ∀ j, j < n2 → 2 * (i + 1 + j) ≤ timeout := by
      intro j hj
      have := hto (j + 1) (by omega)
      rw [show i + (j + 1) = i + 1 + j by omega] at this
      exact this
    have e1 : fuel2 - n2 = fuel2 + 1 - (n2 + 1) := by omega
    have e2 : i + 1 + n2 = i + (n2 + 1) := by omega
    rw [ih fuel2 (i + 1) h1 h2 (by omega), e1, e2]

theorem waitLoop_exit (st : Nat → Option (List Char)) (timeout fuel i : Nat) (s : List Char)
    (hs : st i = some s) (hp : s ≠ processingName) :
    waitLoop st timeout fuel i
      = if s = activeName then WaitResult.ok i else WaitResult.rejected s := by
  cases fuel <;> (unfold waitLoop; rw [hs]; simp [hp])

/-! ### C2, C9: the readiness wait -/

/-- C2: behavior of `wait_for_file_active`.  (1) A handle that keeps reporting
PROCESSING past the timeout bound produces the Timeout error; (2) a handle
that reaches a terminal state other than ACTIVE before timing out produces the
provider-rejected error carrying that state; (3) a handle already ACTIVE is
returned immediately, after zero polls, with no Timeout. -/
theorem wait_for_file_active_spec :
    (∀ st timeout, (∀ i, 2 * i ≤ timeout + 2 → st i = some processingName) →
      wait_for_file_active st timeout = WaitResult.timeout) ∧
    (∀ st timeout n s, (∀ i, i < n → st i = some processingName) →
      (∀ i, i < n → 2 * i ≤ timeout) → st n = some s →
      s ≠ processingName → s ≠ activeName →
      wait_for_file_active st timeout = WaitResult.rejected s) ∧
    (∀ st timeout, st 0 = some activeName →
      wait_for_file_active st timeout = WaitResult.ok 0) := by
  refine ⟨?_, ?_, ?_⟩
  · intro st timeout hst
    exact waitLoop_timeout st timeout (timeout + 1) 0 hst (by omega) (by omega)
  · intro st timeout n s hproc hto hs hp ha
    have hn : n ≤ timeout + 1 := by
      cases n with
      | zero => omega
      | succ n2 =>
        have := hto n2 (by omega)
        omega
    unfold wait_for_file_active
    rw [waitLoop_skip st timeout n (timeout + 1) 0 (by simpa using hproc)
      (by simpa using hto) hn]
    rw [show (0 + n) = n by omega]
    rw [waitLoop_exit st timeout (timeout + 1 - n) n s hs hp]
    simp [ha]
  · intro st timeout h0
    unfold wait_for_file_active
    rw [waitLoop_exit st timeout (timeout + 1) 0 activeName h0 (by decide)]
    simp

/-- Witness for C2: the three behaviors at concrete state streams with
timeout 4: always PROCESSING times out; PROCESSING then FAILED is rejected
with FAILED; immediately ACTIVE returns at once. -/
theorem wait_for_file_active_spec_witness :
    wait_for_file_active (fun _ => some processingName) 4 = WaitResult.timeout ∧
    wait_for_file_active
      (fun i => if i = 0 then some processingName else some ('F' :: 'A' :: 'I' :: 'L' :: []))
      4 = WaitResult.rejected ('F' :: 'A' :: 'I' :: 'L' :: []) ∧
    wait_for_file_active (fun _ => some activeName) 4 = WaitResult.ok 0 := by
  refine ⟨?_, ?_, ?_⟩
  · exact wait_for_file_active_spec.1 (fun _ => some processingName) 4 (fun i _ => rfl)
  · exact wait_for_file_active_spec.2.1
      (fun i => if i = 0 then some processingName else some ('F' :: 'A' :: 'I' :: 'L' :: []))
      4 1 ('F' :: 'A' :: 'I' :: 'L' :: [])
      (by intro i hi; interval_cases i; rfl)
      (by intro i hi; interval_cases i; decide)
      (by rfl) (by decide) (by decide)
  · exact wait_for_file_active_spec.2.2 (fun _ => some activeName) 4 rfl

/-- C9: a handle whose `state` attribute is missing or falsy is returned
immediately as a success: the poll loop and the rejection check are both
skipped, so the result is neither Timeout nor ProviderRejected. -/
theorem wait_without_state_returns_ok (st : Nat → Option (List Char)) (timeout : Nat)
    (h0 : st 0 = none) : wait_for_file_active st timeout = WaitResult.ok 0 := by
  unfold wait_for_file_active waitLoop
  rw [h0]

/-- Witness for C9 at a concrete stateless handle. -/
theorem wait_without_state_returns_ok_witness :
    wait_for_file_active (fun _ => none) 120 = WaitResult.ok 0 :=
  wait_without_state_returns_ok (fun _ => none) 120 rfl

/-! ### Helper lemmas: lender resolution -/

theorem find_lender_files_found_eq (lenders : List (List Char))
    (index : List (List Char × List Char)) :
    (find_lender_files lenders index).1
      = lenders.filterMap
          (fun l => (lookupIndex index (normalize_lender_key l)).map (fun p => (l, p))) := by
  induction lenders with
  | nil => simp [find_lender_files]
  | cons l ls ih =>
    cases h : lookupIndex index (normalize_lender_key l) with
    | none => simp [find_lender_files, h, ih]
    | some p => simp [find_lender_files, h, ih]

theorem find_lender_files_missing_eq (lenders : List (List Char))
    (index : List (List Char × List Char)) :
    (find_lender_files lenders index).2
      = lenders.filter (fun l => (lookupIndex index (normalize_lender_key l)).isNone) := by
  induction lenders with
  | nil => simp [find_lender_files]
  | cons l ls ih =>
    cases h : lookupIndex index (normalize_lender_key l) with
    | none => simp [find_lender_files, h, ih]
    | some p => simp [find_lender_files, h, ih]

theorem find_lender_files_length (lenders : List (List Char))
    (index : List (List Char × List Char)) :
    (find_lender_files lenders index).1.length + (find_lender_files lenders index).2.length
      = lenders.length := by
  induction lenders with
  | nil => simp [find_lender_files]
  | cons l ls ih =>
    cases h : lookupIndex index (normalize_lender_key l) with
    | none =>
      simp only [find_lender_files, h]
      simp only [List.length_cons]
      omega
    | some p =>
      simp only [find_lender_files, h]
      simp only [List.length_cons]
      omega

/-! ### C6: resolution partitions the tokens -/

/-- C6: `find_lender_files` partitions its input tokens: the matches are
exactly the tokens whose normalized key is in the index, paired with the
looked-up path, in input order; the misses are exactly the others, in input
order; and every input token is accounted for exactly once. -/
theorem find_lender_files_partition (lenders : List (List Char))
    (index : List (List Char × List Char)) :
    (find_lender_files lenders index).1
      = lenders.filterMap
          (fun l => (lookupIndex index (normalize_lender_key l)).map (fun p => (l, p))) ∧
    (find_lender_files lenders index).2
      = lenders.filter (fun l => (lookupIndex index (normalize_lender_key l)).isNone) ∧
    (find_lender_files lenders index).1.length + (find_lender_files lenders index).2.length
      = lenders.length :=
  ⟨find_lender_files_found_eq lenders index, find_lender_files_missing_eq lenders index,
    find_lender_files_length lenders index⟩

/-! ### C4: missing lenders abort the query before any upload -/

/-- C4: when the guards on lender list and question pass but at least one
token fails index lookup, the query fails with the LendersNotFound error
carrying exactly the missing tokens (the lookup failures, in input order),
and neither the upload phase nor the model call is attempted. -/
theorem missing_lenders_abort (prompt : List Char) (selected : List (List Char))
    (index : List (List Char × List Char)) (modelName : List Char)
    (upl : Except UploadError Unit) (rt : Option (List Char))
    (h1 : effectiveLenders prompt selected ≠ [])
    (h2 : effectiveQuestion prompt selected ≠ [])
    (h3 : (find_lender_files (effectiveLenders prompt selected) index).2 ≠ []) :
    runQuery prompt selected index modelName upl rt
      = ⟨Except.error
            (QueryError.lendersNotFound
              (find_lender_files (effectiveLenders prompt selected) index).2),
          false, false,
          ⟨prompt, none,
            some (QueryError.lendersNotFound
              (find_lender_files (effectiveLenders prompt selected) index).2)⟩⟩ ∧
    (find_lender_files (effectiveLenders prompt selected) index).2
      = (effectiveLenders prompt selected).filter
          (fun l => (lookupIndex index (normalize_lender_key l)).isNone) := by
  constructor
  · unfold runQuery
    rw [if_neg h1, if_neg h2, if_pos h3]
  · exact find_lender_files_missing_eq (effectiveLenders prompt selected) index

/-- Witness for C4: the query `(acme, ghostlender) minimum FICO?` against an
index holding only `acme` fails with LendersNotFound naming `ghostlender`,
with no upload and no model call. -/
theorem missing_lenders_abort_witness :
    runQuery ("(acme, ghostlender) minimum FICO?".toList) []
        [("acme".toList, "acme.pdf".toList)] ("m".toList) (Except.ok ()) none
      = ⟨Except.error
            (QueryError.lendersNotFound
              (find_lender_files
                (effectiveLenders ("(acme, ghostlender) minimum FICO?".toList) [])
                [("acme".toList, "acme.pdf".toList)]).2),
          false, false,
          ⟨"(acme, ghostlender) minimum FICO?".toList, none,
            some (QueryError.lendersNotFound
              (find_lender_files
                (effectiveLenders ("(acme, ghostlender) minimum FICO?".toList) [])
                [("acme".toList, "acme.pdf".toList)]).2)⟩⟩ ∧
    (find_lender_files (effectiveLenders ("(acme, ghostlender) minimum FICO?".toList) [])
        [("acme".toList, "acme.pdf".toList)]).2
      = (effectiveLenders ("(acme, ghostlender) minimum FICO?".toList) []).filter
          (fun l =>
            (lookupIndex [("acme".toList, "acme.pdf".toList)]
              (normalize_lender_key l)).isNone) :=
  missing_lenders_abort ("(acme, ghostlender) minimum FICO?".toList) []
    [("acme".toList, "acme.pdf".toList)] ("m".toList) (Except.ok ()) none
    (by decide) (by decide) (by decide)

/-! ### C5: empty model response becomes the fallback sentence -/

/-- C5: an empty or whitespace-only model response is replaced by the fixed
fallback apology sentence; when every guard passes and the upload phase
succeeds, such a query terminates as a success whose log entry carries the
fallback text and no error. -/
theorem empty_response_fallback (prompt : List Char) (selected : List (List Char))
    (index : List (List Char × List Char)) (modelName : List Char) (rt : Option (List Char))
    (h1 : effectiveLenders prompt selected ≠ [])
    (h2 : effectiveQuestion prompt selected ≠ [])
    (h3 : (find_lender_files (effectiveLenders prompt selected) index).2 = [])
    (h4 : modelName ≠ [])
    (h5 : pyStrip (rt.getD []) = []) :
    answerText rt = fallbackText ∧
    runQuery prompt selected index modelName (Except.ok ()) rt
      = ⟨Except.ok fallbackText, true, true, ⟨prompt, some fallbackText, none⟩⟩ := by
  have hat : answerText rt = fallbackText := by
    unfold answerText
    rw [h5]
    simp
  refine ⟨hat, ?_⟩
  unfold runQuery
  rw [if_neg h1, if_neg h2, if_neg (by simpa using h3), if_neg h4]
  simp [hat]

/-- Witness for C5: a valid one-lender query whose model response is `None`
yields the fallback sentence, logged as a success. -/
theorem empty_response_fallback_witness :
    answerText none = fallbackText ∧
    runQuery ("(acme) minimum FICO?".toList) [] [("acme".toList, "acme.pdf".toList)]
        ("m".toList) (Except.ok ()) none
      = ⟨Except.ok fallbackText, true, true,
          ⟨"(acme) minimum FICO?".toList, some fallbackText, none⟩⟩ :=
  empty_response_fallback ("(acme) minimum FICO?".toList) []
    [("acme".toList, "acme.pdf".toList)] ("m".toList) none
    (by decide) (by decide) (by decide) (by decide) (by decide)

/-! ### Helper lemmas: the PDF index -/

theorem optOr_none_right {α : Type} (a : Option α) : optOr a none = a := by
  cases a <;> rfl

theorem lookupIndex_insertKey (m : List (List Char × List Char)) (k v k' : List Char) :
    lookupIndex (insertKey m k v) k' = if k' = k then some v else lookupIndex m k' := by
  induction m with
  | nil =>
    by_cases h : k' = k
    · simp [insertKey, lookupIndex, h]
    · simp [insertKey, lookupIndex, h, Ne.symm h]
  | cons p rest ih =>
    obtain ⟨k0, v0⟩ := p
    by_cases h0 : k0 = k
    · subst h0
      by_cases h : k' = k0
      · simp [insertKey, lookupIndex, h]
      · simp [insertKey, lookupIndex, h, Ne.symm h]
    · by_cases h : k' = k
      · subst h
        simp [insertKey, lookupIndex, h0, ih]
      · by_cases h2 : k0 = k'
        · simp [insertKey, lookupIndex, h0, h, h2, ih]
        · simp [insertKey, lookupIndex, h0, h, h2, ih]

theorem lookupIndex_foldl_insert (l : List (List Char)) :
    ∀ (m : List (List Char × List Char)) (k' : List Char),
      lookupIndex (l.foldl (fun m f => insertKey m (normalize_lender_key (stemOf f)) f) m) k'
        = optOr
            ((l.filter (fun f => decide (normalize_lender_key (stemOf f) = k'))).getLast?)
            (lookupIndex m k') := by
  induction l with
  | nil => intro m k'; simp [optOr]
  | cons f l ih =>
    intro m k'
    simp only [List.foldl_cons]
    rw [ih]
    by_cases hf : normalize_lender_key (stemOf f) = k'
    · rw [List.filter_cons_of_pos (by simpa using hf)]
      rw [lookupIndex_insertKey, if_pos hf.symm]
      cases hfl : l.filter (fun f => decide (normalize_lender_key (stemOf f) = k')) with
      | nil => simp [optOr]
      | cons y ys =>
        rw [List.getLast?_cons_cons]
        cases hys : (y :: ys).getLast? with
        | none => simp at hys
        | some x => simp [optOr, hys]
    · rw [List.filter_cons_of_neg (by simpa using hf)]
      rw [lookupIndex_insertKey, if_neg (fun e => hf e.symm)]

/-! ### C7: index construction is last-sorted-wins -/

/-- C7: a nonexistent directory yields an empty index (not an error), and
otherwise looking up any key in the built index returns exactly the last file
in sorted name order whose stem normalizes to that key (silent overwrite on
collision), or nothing when no file matches. -/
theorem index_lender_pdfs_spec :
    (∀ files, index_lender_pdfs false files = []) ∧
    (∀ files key, lookupIndex (index_lender_pdfs true files) key
      = ((sortFiles files).filter
          (fun f => decide (normalize_lender_key (stemOf f) = key))).getLast?) := by
  constructor
  · intro files
    simp [index_lender_pdfs]
  · intro files key
    rw [show index_lender_pdfs true files
        = (sortFiles files).foldl
            (fun m f => insertKey m (normalize_lender_key (stemOf f)) f) [] from by
      simp [index_lender_pdfs]]
    rw [lookupIndex_foldl_insert]
    simp [lookupIndex, optOr_none_right]

/-! ### Helper lemmas: the parenthesized-group search -/

theorem takeWhile_append_all {p : Char → Bool} (g : List Char) (x : Char) (r : List Char)
    (hg : ∀ c ∈ g, p c = true) (hx : p x = false) :
    (g ++ x :: r).takeWhile p = g := by
  induction g with
  | nil => simp [List.takeWhile_cons, hx]
  | cons c g ih =>
    have hc : p c = true := hg c (by simp)
    simp only [List.cons_append, List.takeWhile_cons, hc, if_true]
    rw [ih (fun d hd => hg d (by simp [hd]))]

theorem findGroupGo_found (pre : List Char) :
    ∀ (acc g r : List Char), (∀ c ∈ pre, c ≠ '(') → g ≠ [] → (∀ c ∈ g, c ≠ ')') →
      findGroupGo acc (pre ++ '(' :: (g ++ ')' :: r)) = some (acc.reverse ++ pre, g, r) := by
  induction pre with
  | nil =>
    intro acc g r _ hg hgr
    have hk : ((g ++ ')' :: r).takeWhile (fun d => !(d = ')'))).length = g.length := by
      rw [takeWhile_append_all g ')' r (fun c hc => by simp [hgr c hc]) (by decide)]
    have h0 : 0 < g.length := List.length_pos.mpr hg
    have h1 : g.length < (g ++ ')' :: r).length := by
      simp [List.length_append]
    have ht : (g ++ ')' :: r).take g.length = g := List.take_left g (')' :: r)
    have hd : (g ++ ')' :: r).drop (g.length + 1) = r := by
      rw [← List.drop_drop, List.drop_left g (')' :: r)]
      simp
    simp [findGroupGo, hk, h0, h1, ht, hd]
  | cons c pre ih =>
    intro acc g r hpre hg hgr
    have hc : c ≠ '(' := hpre c (by simp)
    simp only [List.cons_append, findGroupGo, if_neg hc, List.append_eq]
    rw [ih (c :: acc) g r (fun d hd => hpre d (by simp [hd])) hg hgr]
    simp

theorem dropWhile_ws_append_cons (x : List Char) (c : Char) (z : List Char)
    (hc : isWs c = false) :
    (x ++ c :: z).dropWhile isWs = x.dropWhile isWs ++ c :: z := by
  induction x with
  | nil => simp [List.dropWhile_cons, hc]
  | cons a x ih =>
    by_cases ha : isWs a <;> simp [List.dropWhile_cons, ha, ih]

theorem rstrip_append_cons (A : List Char) (c : Char) (y : List Char) (hc : isWs c = false) :
    rstrip (A ++ c :: y) = A ++ c :: rstrip y := by
  unfold rstrip
  have h1 : (A ++ c :: y).reverse = y.reverse ++ c :: A.reverse := by
    simp [List.reverse_append]
  rw [h1, dropWhile_ws_append_cons y.reverse c A.reverse hc]
  simp

theorem pyStrip_append_group (x g2 y : List Char) :
    pyStrip (x ++ '(' :: (g2 ++ ')' :: y))
      = x.dropWhile isWs ++ '(' :: (g2 ++ ')' :: rstrip y) := by
  unfold pyStrip
  rw [dropWhile_ws_append_cons x '(' (g2 ++ ')' :: y) (by decide)]
  have h1 : x.dropWhile isWs ++ '(' :: (g2 ++ ')' :: y)
      = (x.dropWhile isWs ++ '(' :: g2) ++ ')' :: y := by
    simp
  rw [h1, rstrip_append_cons _ ')' y (by decide)]
  simp

/-! ### C8: only the first parenthesized group is the lender list -/

/-- C8: with more than one parenthesized group, only the first is split into
lender tokens; the question is the trimmed concatenation of the text before
and after that first group, and the later group stays inside it verbatim,
parentheses included. -/
theorem first_group_only (pre g1 mid g2 post : List Char)
    (hpre : ∀ c ∈ pre, c ≠ '(') (hg1 : g1 ≠ []) (hg1r : ∀ c ∈ g1, c ≠ ')') :
    parse_lenders_and_question
        (pre ++ '(' :: (g1 ++ ')' :: (mid ++ '(' :: (g2 ++ ')' :: post))))
      = (tokenizeLenders g1, pyStrip (pre ++ (mid ++ '(' :: (g2 ++ ')' :: post)))) ∧
    pyStrip (pre ++ (mid ++ '(' :: (g2 ++ ')' :: post)))
      = (pre ++ mid).dropWhile isWs ++ '(' :: (g2 ++ ')' :: rstrip post) := by
  have hq : pre ++ (mid ++ '(' :: (g2 ++ ')' :: post))
      = (pre ++ mid) ++ '(' :: (g2 ++ ')' :: post) := by
    simp
  constructor
  · unfold parse_lenders_and_question
    rw [findGroupGo_found pre [] g1 (mid ++ '(' :: (g2 ++ ')' :: post)) hpre hg1 hg1r]
    simp
  · rw [hq, pyStrip_append_group]

/-- Witness for C8 at a concrete two-group input. -/
theorem first_group_only_witness :
    parse_lenders_and_question
        ("a ".toList ++ '(' :: ("x,y".toList ++ ')' :: (" q ".toList ++ '(' ::
          ("c".toList ++ ')' :: " r".toList))))
      = (tokenizeLenders "x,y".toList,
          pyStrip ("a ".toList ++ (" q ".toList ++ '(' ::
            ("c".toList ++ ')' :: " r".toList)))) ∧
    pyStrip ("a ".toList ++ (" q ".toList ++ '(' :: ("c".toList ++ ')' :: " r".toList)))
      = ("a ".toList ++ " q ".toList).dropWhile isWs ++ '(' ::
          ("c".toList ++ ')' :: rstrip " r".toList) :=
  first_group_only "a ".toList "x,y".toList " q ".toList "c".toList " r".toList
    (by decide) (by decide) (by decide)

/-! ### Helper lemmas: character classes -/

theorem isWs_enum (c : Char) (h : isWs c = true) :
    c = ' ' ∨ c = '\t' ∨ c = '\n' ∨ c = '\r' ∨ c = Char.ofNat 11 ∨ c = Char.ofNat 12 := by
  simp only [isWs, Bool.or_eq_true, decide_eq_true_eq] at h
  tauto

theorem ws_toLower_self (c : Char) (h : isWs c = true) : c.toLower = c := by
  rcases isWs_enum c h with h | h | h | h | h | h <;> subst h <;> decide

theorem ws_not_wordChar (c : Char) (h : isWs c = true) : isWordChar c = false := by
  rcases isWs_enum c h with h | h | h | h | h | h <;> subst h <;> decide

theorem isDelimChar_enum (c : Char) (h : isDelimChar c = true) :
    c = ',' ∨ c = '/' ∨ c = '&' ∨ c = '+' := by
  simp only [isDelimChar, Bool.or_eq_true, decide_eq_true_eq] at h
  tauto

theorem delimChar_toLower_self (c : Char) (h : isDelimChar c = true) : c.toLower = c := by
  rcases isDelimChar_enum c h with h | h | h | h <;> subst h <;> decide

theorem not_ws_of_toLower (c lc : Char) (h : c.toLower = lc)
    (hself : ∀ w, isWs w = true → w ≠ lc) : isWs c = false := by
  cases hw : isWs c
  · rfl
  · exfalso
    rw [ws_toLower_self c hw] at h
    exact hself c hw h

theorem not_ws_of_toLower_a (c : Char) (h : c.toLower = 'a') : isWs c = false := by
  refine not_ws_of_toLower c 'a' h ?_
  intro w hw
  rcases isWs_enum w hw with h | h | h | h | h | h <;> subst h <;> decide

theorem not_ws_of_toLower_o (c : Char) (h : c.toLower = 'o') : isWs c = false := by
  refine not_ws_of_toLower c 'o' h ?_
  intro w hw
  rcases isWs_enum w hw with h | h | h | h | h | h <;> subst h <;> decide

theorem not_delimChar_of_toLower_a (c : Char) (h : c.toLower = 'a') : isDelimChar c = false := by
  cases hd : isDelimChar c
  · rfl
  · exfalso
    rw [delimChar_toLower_self c hd] at h
    rcases isDelimChar_enum c hd with e | e | e | e <;> rw [e] at h <;> exact absurd h (by decide)

theorem not_delimChar_of_toLower_o (c : Char) (h : c.toLower = 'o') : isDelimChar c = false := by
  cases hd : isDelimChar c
  · rfl
  · exfalso
    rw [delimChar_toLower_self c hd] at h
    rcases isDelimChar_enum c hd with e | e | e | e <;> rw [e] at h <;> exact absurd h (by decide)

theorem ne_rparen_of_ws (c : Char) (h : isWs c = true) : c ≠ ')' := by
  intro e
  subst e
  exact absurd h (by decide)

theorem ne_rparen_of_toLower (c lc : Char) (h : c.toLower = lc)
    (hlc : (')' : Char).toLower ≠ lc) : c ≠ ')' := by
  intro e
  subst e
  exact hlc h

/-! ### Helper lemmas: whitespace runs and strips -/

theorem wsCount_ws_append (w : List Char) (hw : ∀ x ∈ w, isWs x = true) (c : Char)
    (hc : isWs c = false) (l : List Char) : wsCount (w ++ c :: l) = w.length := by
  induction w with
  | nil => simp [wsCount, hc]
  | cons a w ih =>
    have ha : isWs a = true := hw a (by simp)
    simp only [List.cons_append, wsCount, ha, if_true, List.length_cons, List.append_eq]
    rw [ih (fun x hx => hw x (by simp [hx]))]

theorem dropWhile_head_false {p : Char → Bool} :
    ∀ (l : List Char) (c : Char) (r : List Char), l.dropWhile p = c :: r → p c = false := by
  intro l
  induction l with
  | nil => intro c r h; simp [List.dropWhile] at h
  | cons a l ih =>
    intro c r h
    by_cases ha : p a
    · rw [List.dropWhile_cons, if_pos ha] at h
      exact ih c r h
    · rw [List.dropWhile_cons, if_neg ha] at h
      cases h
      exact Bool.of_not_eq_true ha

theorem pyStrip_eq_self (n : List Char)
    (h1 : ∀ c, n.head? = some c → isWs c = false)
    (h2 : ∀ c, n.getLast? = some c → isWs c = false) : pyStrip n = n := by
  unfold pyStrip rstrip
  have hd : n.dropWhile isWs = n := by
    cases n with
    | nil => rfl
    | cons c r =>
      rw [List.dropWhile_cons, if_neg (by simp [h1 c rfl])]
  rw [hd]
  cases hrev : n.reverse with
  | nil =>
    have : n = [] := by simpa using congrArg List.reverse hrev
    simp [this]
  | cons c r =>
    have hlast : n.getLast? = some c := by
      rw [← List.head?_reverse, hrev]
      rfl
    rw [List.dropWhile_cons, if_neg (by simp [h2 c hlast]), ← hrev]
    simp

/-! ### Helper lemmas: the split pattern scanner -/

theorem altMatch_pos (prev : Option Char) (l : List Char) (a : Nat)
    (h : altMatch prev l = some a) : 1 ≤ a := by
  cases l with
  | nil => simp [altMatch] at h
  | cons c rest =>
    simp only [altMatch] at h
    by_cases h1 : isDelimChar c
    · rw [if_pos h1] at h
      cases h
      omega
    · rw [if_neg h1] at h
      by_cases h2 : c.toLower = 'a'
      · rw [if_pos h2] at h
        cases rest with
        | nil => simp at h
        | cons c2 rest2 =>
          cases rest2 with
          | nil => simp at h
          | cons c3 rest3 =>
            have hif : (if (decide (c2.toLower = 'n') && decide (c3.toLower = 'd') &&
                boundaryOk prev && afterOk rest3) = true then (some 3 : Option Nat)
                else none) = some a := h
            by_cases hcond : (decide (c2.toLower = 'n') && decide (c3.toLower = 'd') &&
                boundaryOk prev && afterOk rest3) = true
            · rw [if_pos hcond] at hif
              cases hif
              omega
            · rw [if_neg hcond] at hif
              simp at hif
      · rw [if_neg h2] at h
        by_cases h3 : c.toLower = 'o'
        · rw [if_pos h3] at h
          cases rest with
          | nil => simp at h
          | cons c2 rest2 =>
            have hif : (if (decide (c2.toLower = 'r') &&
                boundaryOk prev && afterOk rest2) = true then (some 2 : Option Nat)
                else none) = some a := h
            by_cases hcond : (decide (c2.toLower = 'r') &&
                boundaryOk prev && afterOk rest2) = true
            · rw [if_pos hcond] at hif
              cases hif
              omega
            · rw [if_neg hcond] at hif
              simp at hif
        · rw [if_neg h3] at h
          simp at h

theorem matchLen_pos (prev : Option Char) (l : List Char) (a : Nat)
    (h : matchLen prev l = some a) : 1 ≤ a := by
  simp only [matchLen] at h
  cases he : altMatch (if wsCount l = 0 then prev else (l.take (wsCount l)).getLast?)
      (l.drop (wsCount l)) with
  | none => rw [he] at h; simp at h
  | some b =>
    rw [he] at h
    have hb := altMatch_pos _ _ b he
    cases h
    omega

theorem matchLen_of_parts (w : List Char) (c : Char) (r2 : List Char) (prev : Option Char)
    (hw : ∀ x ∈ w, isWs x = true) (hc : isWs c = false) :
    matchLen prev (w ++ c :: r2)
      = match altMatch (if w.length = 0 then prev else w.getLast?) (c :: r2) with
        | none => none
        | some a => some (w.length + a + wsCount ((c :: r2).drop a)) := by
  simp only [matchLen, wsCount_ws_append w hw c hc r2, List.drop_left, List.take_left]

theorem matchLen_of_parts_some (w : List Char) (c : Char) (r2 : List Char) (prev : Option Char)
    (a : Nat) (hw : ∀ x ∈ w, isWs x = true) (hc : isWs c = false)
    (ha : altMatch (if w.length = 0 then prev else w.getLast?) (c :: r2) = some a) :
    matchLen prev (w ++ c :: r2) = some (w.length + a + wsCount ((c :: r2).drop a)) := by
  rw [matchLen_of_parts w c r2 prev hw hc, ha]

theorem matchLen_of_parts_none (w : List Char) (c : Char) (r2 : List Char) (prev : Option Char)
    (hw : ∀ x ∈ w, isWs x = true) (hc : isWs c = false)
    (ha : altMatch (if w.length = 0 then prev else w.getLast?) (c :: r2) = none) :
    matchLen prev (w ++ c :: r2) = none := by
  rw [matchLen_of_parts w c r2 prev hw hc, ha]

theorem splitGo_fuel_congr :
    ∀ (f1 : Nat) (rem : List Char) (f2 : Nat) (prev : Option Char) (cur : List Char),
      rem.length ≤ f1 → rem.length ≤ f2 →
      splitGo f1 prev cur rem = splitGo f2 prev cur rem := by
  intro f1
  induction f1 with
  | zero =>
    intro rem f2 prev cur h1 h2
    have hrem : rem = [] := by
      cases rem with
      | nil => rfl
      | cons c r => simp at h1
    subst hrem
    cases f2 <;> rfl
  | succ f ih =>
    intro rem f2 prev cur h1 h2
    cases rem with
    | nil => cases f2 <;> rfl
    | cons c r =>
      obtain ⟨g, rfl⟩ : ∃ g, f2 = g + 1 := ⟨f2 - 1, by simp at h2; omega⟩
      cases hm : matchLen prev (c :: r) with
      | none =>
        simp only [splitGo, hm]
        exact ih r g (some c) (c :: cur)
          (by simp only [List.length_cons] at h1; omega)
          (by simp only [List.length_cons] at h2; omega)
      | some n =>
        have hn : 1 ≤ n := matchLen_pos prev (c :: r) n hm
        simp only [splitGo, hm]
        congr 1
        exact ih ((c :: r).drop n) g ((c :: r).take n).getLast? []
          (by simp only [List.length_drop, List.length_cons] at *; omega)
          (by simp only [List.length_drop, List.length_cons] at *; omega)

/-! ### Helper lemmas: well-behaved names -/

theorem goodNameB_spec (n : List Char) (hn : goodNameB n = true) :
    n ≠ [] ∧
    (∀ c ∈ n, isDelimChar c = false ∧ c ≠ '(' ∧ c ≠ ')') ∧
    (∀ c, n.head? = some c → isWs c = false) ∧
    (∀ c, n.getLast? = some c → isWs c = false) ∧
    (∀ i len, andOrAt n i = some len → i < n.length → protectedAt n i len = true) := by
  simp only [goodNameB, Bool.and_eq_true, List.all_eq_true] at hn
  obtain ⟨⟨⟨⟨h1, h2⟩, h3⟩, h4⟩, h5⟩ := hn
  refine ⟨?_, ?_, ?_, ?_, ?_⟩
  · intro e
    subst e
    simp at h1
  · intro c hc
    have hcc := h2 c hc
    simp only [Bool.and_eq_true, Bool.not_eq_true', decide_eq_false_iff_not] at hcc
    exact ⟨hcc.1.1, hcc.1.2, hcc.2⟩
  · intro c hc
    rw [hc] at h3
    simpa using h3
  · intro c hc
    rw [hc] at h4
    simpa using h4
  · intro i len hao hi
    have hp := h5 i (List.mem_range.mpr hi)
    rw [hao] at hp
    simpa using hp

theorem wordCharAt_append_right (A B : List Char) (j : Nat) :
    wordCharAt (A ++ B) (A.length + j) = wordCharAt B j := by
  unfold wordCharAt
  rw [List.get?_append_right (by omega)]
  simp

theorem wordCharAt_append_left (A B : List Char) (j : Nat) (hj : j < A.length) :
    wordCharAt (A ++ B) j = wordCharAt A j := by
  unfold wordCharAt
  rw [List.get?_append hj]

theorem wordCharAt_last (A : List Char) (c : Char) (h : A.getLast? = some c) :
    wordCharAt A (A.length - 1) = isWordChar c := by
  unfold wordCharAt
  rw [← List.getLast?_eq_get?, h]

theorem wordCharAt_zero (B : List Char) (c : Char) (h : B.head? = some c) :
    wordCharAt B 0 = isWordChar c := by
  cases B with
  | nil => simp at h
  | cons b bs =>
    simp only [List.head?_cons, Option.some.injEq] at h
    subst h
    rfl

/-! ### Helper lemmas: a delimiter occurrence is matched whole -/

theorem delimOkB_spec (ws1 : List Char) (core : DCore) (ws2 : List Char)
    (hd : delimOkB ⟨ws1, core, ws2⟩ = true) :
    (∀ x ∈ ws1, isWs x = true) ∧ (∀ x ∈ ws2, isWs x = true) ∧ coreOkB core = true ∧
      (coreIsWord core = true → ws1 ≠ [] ∧ ws2 ≠ []) := by
  simp only [delimOkB, Bool.and_eq_true, List.all_eq_true, Bool.or_eq_true,
    Bool.not_eq_true', List.isEmpty_eq_false] at hd
  obtain ⟨⟨⟨h1, h2⟩, h3⟩, h4⟩ := hd
  refine ⟨h1, h2, h3, ?_⟩
  intro hw
  rcases h4 with h4 | h4
  · rw [hw] at h4
    cases h4
  · exact h4

theorem matchLen_delim (ws1 : List Char) (core : DCore) (ws2 : List Char)
    (hd : delimOkB ⟨ws1, core, ws2⟩ = true) (prev : Option Char)
    (c0 : Char) (hc0 : isWs c0 = false) (rest2 : List Char) :
    matchLen prev (renderDelim ⟨ws1, core, ws2⟩ ++ c0 :: rest2)
      = some (renderDelim ⟨ws1, core, ws2⟩).length := by
  obtain ⟨h1, h2, h3, h4⟩ := delimOkB_spec ws1 core ws2 hd
  cases core with
  | comma =>
    have he : renderDelim ⟨ws1, DCore.comma, ws2⟩ ++ c0 :: rest2
        = ws1 ++ ',' :: (ws2 ++ c0 :: rest2) := by
      simp [renderDelim, renderCore]
    have ha : altMatch (if ws1.length = 0 then prev else ws1.getLast?)
        (',' :: (ws2 ++ c0 :: rest2)) = some 1 := by
      simp [altMatch, isDelimChar]
    rw [he, matchLen_of_parts_some ws1 ',' (ws2 ++ c0 :: rest2) prev 1 h1 (by decide) ha]
    have hws : wsCount ((',' :: (ws2 ++ c0 :: rest2)).drop 1) = ws2.length := by
      simp only [List.drop_succ_cons, List.drop_zero]
      exact wsCount_ws_append ws2 h2 c0 hc0 rest2
    rw [hws]
    simp [renderDelim, renderCore]
    omega
  | slash =>
    have he : renderDelim ⟨ws1, DCore.slash, ws2⟩ ++ c0 :: rest2
        = ws1 ++ '/' :: (ws2 ++ c0 :: rest2) := by
      simp [renderDelim, renderCore]
    have ha : altMatch (if ws1.length = 0 then prev else ws1.getLast?)
        ('/' :: (ws2 ++ c0 :: rest2)) = some 1 := by
      simp [altMatch, isDelimChar]
    rw [he, matchLen_of_parts_some ws1 '/' (ws2 ++ c0 :: rest2) prev 1 h1 (by decide) ha]
    have hws : wsCount (('/' :: (ws2 ++ c0 :: rest2)).drop 1) = ws2.length := by
      simp only [List.drop_succ_cons, List.drop_zero]
      exact wsCount_ws_append ws2 h2 c0 hc0 rest2
    rw [hws]
    simp [renderDelim, renderCore]
    omega
  | amp =>
    have he : renderDelim ⟨ws1, DCore.amp, ws2⟩ ++ c0 :: rest2
        = ws1 ++ '&' :: (ws2 ++ c0 :: rest2) := by
      simp [renderDelim, renderCore]
    have ha : altMatch (if ws1.length = 0 then prev else ws1.getLast?)
        ('&' :: (ws2 ++ c0 :: rest2)) = some 1 := by
      simp [altMatch, isDelimChar]
    rw [he, matchLen_of_parts_some ws1 '&' (ws2 ++ c0 :: rest2) prev 1 h1 (by decide) ha]
    have hws : wsCount (('&' :: (ws2 ++ c0 :: rest2)).drop 1) = ws2.length := by
      simp only [List.drop_succ_cons, List.drop_zero]
      exact wsCount_ws_append ws2 h2 c0 hc0 rest2
    rw [hws]
    simp [renderDelim, renderCore]
    omega
  | plus =>
    have he : renderDelim ⟨ws1, DCore.plus, ws2⟩ ++ c0 :: rest2
        = ws1 ++ '+' :: (ws2 ++ c0 :: rest2) := by
      simp [renderDelim, renderCore]
    have ha : altMatch (if ws1.length = 0 then prev else ws1.getLast?)
        ('+' :: (ws2 ++ c0 :: rest2)) = some 1 := by
      simp [altMatch, isDelimChar]
    rw [he, matchLen_of_parts_some ws1 '+' (ws2 ++ c0 :: rest2) prev 1 h1 (by decide) ha]
    have hws : wsCount (('+' :: (ws2 ++ c0 :: rest2)).drop 1) = ws2.length := by
      simp only [List.drop_succ_cons, List.drop_zero]
      exact wsCount_ws_append ws2 h2 c0 hc0 rest2
    rw [hws]
    simp [renderDelim, renderCore]
    omega
  | wordAnd c1 c2 c3 =>
    simp only [coreOkB, Bool.and_eq_true, decide_eq_true_eq] at h3
    obtain ⟨⟨ha1, ha2⟩, ha3⟩ := h3
    obtain ⟨hw1ne, hw2ne⟩ := h4 rfl
    obtain ⟨b2, ws2t, rfl⟩ : ∃ b2 t, ws2 = b2 :: t := by
      cases ws2 with
      | nil => exact absurd rfl hw2ne
      | cons b2 t => exact ⟨b2, t, rfl⟩
    obtain ⟨wg, hwg⟩ : ∃ g, ws1.getLast? = some g := by
      cases hg : ws1.getLast? with
      | none => exact absurd (List.getLast?_eq_none_iff.mp hg) hw1ne
      | some g => exact ⟨g, rfl⟩
    have hwgws : isWs wg = true := h1 wg (by
      have := List.getLast?_eq_get? ws1
      rw [hwg] at this
      exact List.get?_mem this.symm)
    have he : renderDelim ⟨ws1, DCore.wordAnd c1 c2 c3, b2 :: ws2t⟩ ++ c0 :: rest2
        = ws1 ++ c1 :: (c2 :: c3 :: ((b2 :: ws2t) ++ c0 :: rest2)) := by
      simp [renderDelim, renderCore]
    have hb2 : isWs b2 = true := h2 b2 (by simp)
    have ha : altMatch (if ws1.length = 0 then prev else ws1.getLast?)
        (c1 :: c2 :: c3 :: ((b2 :: ws2t) ++ c0 :: rest2)) = some 3 := by
      have hlen : ¬ ws1.length = 0 := by
        simp [List.length_eq_zero, hw1ne]
      simp only [altMatch, not_delimChar_of_toLower_a c1 ha1, Bool.false_eq_true, if_false,
        ha1, if_pos rfl, if_neg hlen, hwg]
      have hb : boundaryOk (some wg) = true := by
        simp [boundaryOk, ws_not_wordChar wg hwgws]
      have haf2 : afterOk (b2 :: (ws2t ++ c0 :: rest2)) = true := by
        simp [afterOk, ws_not_wordChar b2 hb2]
      simp [ha2, ha3, hb, haf2]
    rw [he, matchLen_of_parts_some ws1 c1 (c2 :: c3 :: ((b2 :: ws2t) ++ c0 :: rest2)) prev 3 h1
      (not_ws_of_toLower_a c1 ha1) ha]
    have hws : wsCount ((c1 :: c2 :: c3 :: ((b2 :: ws2t) ++ c0 :: rest2)).drop 3)
        = (b2 :: ws2t).length := by
      simp only [List.drop_succ_cons, List.drop_zero]
      exact wsCount_ws_append (b2 :: ws2t) h2 c0 hc0 rest2
    rw [hws]
    simp [renderDelim, renderCore]
    omega
  | wordOr c1 c2 =>
    simp only [coreOkB, Bool.and_eq_true, decide_eq_true_eq] at h3
    obtain ⟨ho1, ho2⟩ := h3
    obtain ⟨hw1ne, hw2ne⟩ := h4 rfl
    obtain ⟨b2, ws2t, rfl⟩ : ∃ b2 t, ws2 = b2 :: t := by
      cases ws2 with
      | nil => exact absurd rfl hw2ne
      | cons b2 t => exact ⟨b2, t, rfl⟩
    obtain ⟨wg, hwg⟩ : ∃ g, ws1.getLast? = some g := by
      cases hg : ws1.getLast? with
      | none => exact absurd (List.getLast?_eq_none_iff.mp hg) hw1ne
      | some g => exact ⟨g, rfl⟩
    have hwgws : isWs wg = true := h1 wg (by
      have := List.getLast?_eq_get? ws1
      rw [hwg] at this
      exact List.get?_mem this.symm)
    have he : renderDelim ⟨ws1, DCore.wordOr c1 c2, b2 :: ws2t⟩ ++ c0 :: rest2
        = ws1 ++ c1 :: (c2 :: ((b2 :: ws2t) ++ c0 :: rest2)) := by
      simp [renderDelim, renderCore]
    have hb2 : isWs b2 = true := h2 b2 (by simp)
    have ha : altMatch (if ws1.length = 0 then prev else ws1.getLast?)
        (c1 :: c2 :: ((b2 :: ws2t) ++ c0 :: rest2)) = some 2 := by
      have hlen : ¬ ws1.length = 0 := by
        simp [List.length_eq_zero, hw1ne]
      have hna : ¬ c1.toLower = 'a' := by
        rw [ho1]
        decide
      simp only [altMatch, not_delimChar_of_toLower_o c1 ho1, Bool.false_eq_true, if_false,
        hna, ho1, if_pos rfl, if_neg hlen, hwg]
      have hb : boundaryOk (some wg) = true := by
        simp [boundaryOk, ws_not_wordChar wg hwgws]
      have haf2 : afterOk (b2 :: (ws2t ++ c0 :: rest2)) = true := by
        simp [afterOk, ws_not_wordChar b2 hb2]
      simp [ho2, hb, haf2]
    rw [he, matchLen_of_parts_some ws1 c1 (c2 :: ((b2 :: ws2t) ++ c0 :: rest2)) prev 2 h1
      (not_ws_of_toLower_o c1 ho1) ha]
    have hws : wsCount ((c1 :: c2 :: ((b2 :: ws2t) ++ c0 :: rest2)).drop 2)
        = (b2 :: ws2t).length := by
      simp only [List.drop_succ_cons, List.drop_zero]
      exact wsCount_ws_append (b2 :: ws2t) h2 c0 hc0 rest2
    rw [hws]
    simp [renderDelim, renderCore]
    omega

theorem tailOkB_delim (ws1 : List Char) (core : DCore) (ws2 : List Char)
    (hd : delimOkB ⟨ws1, core, ws2⟩ = true) (l : List Char) :
    tailOkB (renderDelim ⟨ws1, core, ws2⟩ ++ l) = true := by
  obtain ⟨h1, h2, h3, h4⟩ := delimOkB_spec ws1 core ws2 hd
  cases ws1 with
  | cons b w =>
    have hb : isWs b = true := h1 b (by simp)
    have he : renderDelim ⟨b :: w, core, ws2⟩ ++ l
        = b :: (w ++ renderCore core ++ ws2 ++ l) := by
      simp [renderDelim]
    rw [he]
    rcases isWs_enum b hb with h | h | h | h | h | h <;> subst h <;> rfl
  | nil =>
    cases core with
    | comma => rfl
    | slash => rfl
    | amp => rfl
    | plus => rfl
    | wordAnd c1 c2 c3 =>
      simp only [coreOkB, Bool.and_eq_true, decide_eq_true_eq] at h3
      have he : renderDelim ⟨[], DCore.wordAnd c1 c2 c3, ws2⟩ ++ l
          = c1 :: ([c2, c3] ++ ws2 ++ l) := by
        simp [renderDelim, renderCore]
      rw [he]
      simp [tailOkB, h3.1.1]
    | wordOr c1 c2 =>
      simp only [coreOkB, Bool.and_eq_true, decide_eq_true_eq] at h3
      have he : renderDelim ⟨[], DCore.wordOr c1 c2, ws2⟩ ++ l
          = c1 :: ([c2] ++ ws2 ++ l) := by
        simp [renderDelim, renderCore]
      rw [he]
      simp [tailOkB, h3.1]

/-! ### Helper lemmas: no match starts inside a well-behaved name -/

theorem mem_of_getLast?_eq {l : List Char} {a : Char} (h : l.getLast? = some a) : a ∈ l := by
  have hg := List.getLast?_eq_get? l
  rw [h] at hg
  exact List.get?_mem hg.symm

theorem matchLen_none_in_name (n : List Char) (hn : goodNameB n = true)
    (tail : List Char) (htail : tailOkB tail = true) :
    ∀ (u r : List Char) (prev0 : Option Char), n = u ++ r → r ≠ [] →
      matchLen (prevAt u prev0) (r ++ tail) = none := by
  obtain ⟨hne, hchars, hhead, hlast, hprot⟩ := goodNameB_spec n hn
  intro u r prev0 hur hr
  obtain ⟨lc, hlc⟩ : ∃ a, r.getLast? = some a := by
    cases hg : r.getLast? with
    | none => exact absurd (List.getLast?_eq_none_iff.mp hg) hr
    | some a => exact ⟨a, rfl⟩
  have hlcn : n.getLast? = some lc := by
    rw [hur, List.getLast?_append, hlc]
    rfl
  have hlcw : isWs lc = false := hlast lc hlcn
  obtain ⟨w, c, r2, hr_eq, hwall, hcw⟩ :
      ∃ w c r2, r = w ++ c :: r2 ∧ (∀ x ∈ w, isWs x = true) ∧ isWs c = false := by
    cases hdw : r.dropWhile isWs with
    | nil =>
      exfalso
      have hwr := List.takeWhile_append_dropWhile isWs r
      rw [hdw, List.append_nil] at hwr
      have hall : isWs lc = true := by
        have hmem : lc ∈ r := mem_of_getLast?_eq hlc
        rw [← hwr] at hmem
        exact List.mem_takeWhile_imp hmem
      rw [hall] at hlcw
      cases hlcw
    | cons c r2 =>
      refine ⟨r.takeWhile isWs, c, r2, ?_, ?_, ?_⟩
      · conv_lhs => rw [← List.takeWhile_append_dropWhile isWs r]
        rw [hdw]
      · exact fun x hx => List.mem_takeWhile_imp hx
      · exact dropWhile_head_false r c r2 hdw
  have hassoc : r ++ tail = w ++ c :: (r2 ++ tail) := by
    rw [hr_eq]
    simp
  have hn_eq : n = (u ++ w) ++ c :: r2 := by
    rw [hur, hr_eq]
    simp
  rw [hassoc]
  refine matchLen_of_parts_none w c (r2 ++ tail) (prevAt u prev0) hwall hcw ?_
  have hcn : c ∈ n := by
    rw [hn_eq]
    simp
  have hcd : isDelimChar c = false := (hchars c hcn).1
  have hleft : (decide (0 < (u ++ w).length) && wordCharAt n ((u ++ w).length - 1)) = true →
      boundaryOk (if w.length = 0 then prevAt u prev0 else w.getLast?) = false := by
    intro hl
    rw [Bool.and_eq_true, decide_eq_true_eq] at hl
    obtain ⟨hipos, hwc⟩ := hl
    by_cases hwnil : w = []
    · subst hwnil
      have hne2 : n = u ++ c :: r2 := by simpa using hn_eq
      simp only [List.append_nil] at hipos hwc
      have hu : u ≠ [] := by
        intro e
        subst e
        simp at hipos
      obtain ⟨ug, hug⟩ : ∃ g, u.getLast? = some g := by
        cases hg : u.getLast? with
        | none => exact absurd (List.getLast?_eq_none_iff.mp hg) hu
        | some g => exact ⟨g, rfl⟩
      have h1 : wordCharAt n (u.length - 1) = isWordChar ug := by
        rw [hne2, wordCharAt_append_left u (c :: r2) (u.length - 1) (by omega)]
        exact wordCharAt_last u ug hug
      rw [h1] at hwc
      simp only [List.length_nil, if_pos rfl]
      have hpa : prevAt u prev0 = some ug := by
        unfold prevAt
        rw [hug]
      rw [hpa]
      simp [boundaryOk, hwc]
    · exfalso
      obtain ⟨wg, hwg⟩ : ∃ g, w.getLast? = some g := by
        cases hg : w.getLast? with
        | none => exact absurd (List.getLast?_eq_none_iff.mp hg) hwnil
        | some g => exact ⟨g, rfl⟩
      have hwgws : isWs wg = true := hwall wg (mem_of_getLast?_eq hwg)
      have huw_last : (u ++ w).getLast? = some wg := by
        rw [List.getLast?_append, hwg]
        rfl
      have h1 : wordCharAt n ((u ++ w).length - 1) = isWordChar wg := by
        rw [hn_eq, wordCharAt_append_left (u ++ w) (c :: r2) _ (by omega)]
        exact wordCharAt_last (u ++ w) wg huw_last
      rw [h1, ws_not_wordChar wg hwgws] at hwc
      cases hwc
  simp only [altMatch, hcd, Bool.false_eq_true, if_false]
  by_cases hA : c.toLower = 'a'
  · rw [if_pos hA]
    cases r2 with
    | nil =>
      cases tail with
      | nil => rfl
      | cons t0 ts =>
        have ht0 := htail
        simp only [tailOkB, Bool.and_eq_true, Bool.not_eq_true',
          decide_eq_false_iff_not] at ht0
        cases ts with
        | nil => rfl
        | cons t1 ts2 =>
          have hn0 : decide (t0.toLower = 'n') = false := by
            simp [ht0.1.1]
          simp [hn0]
    | cons c2 r3 =>
      cases r3 with
      | nil =>
        cases tail with
        | nil => rfl
        | cons t0 ts =>
          have ht0 := htail
          simp only [tailOkB, Bool.and_eq_true, Bool.not_eq_true',
            decide_eq_false_iff_not] at ht0
          have hd0 : decide (t0.toLower = 'd') = false := by
            simp [ht0.1.2]
          simp [hd0]
      | cons c3 r4 =>
        by_cases hn2 : c2.toLower = 'n'
        case neg => simp [hn2]
        by_cases hd2 : c3.toLower = 'd'
        case neg => simp [hd2]
        have hdropn : n.drop (u ++ w).length = c :: c2 :: c3 :: r4 := by
          rw [hn_eq]
          exact List.drop_left _ _
        have hao : andOrAt n (u ++ w).length = some 3 := by
          unfold andOrAt
          rw [hdropn]
          simp [hA, hn2, hd2]
        have hilt : (u ++ w).length < n.length := by
          rw [hn_eq]
          simp
        have hp := hprot (u ++ w).length 3 hao hilt
        unfold protectedAt at hp
        rw [Bool.or_eq_true] at hp
        rcases hp with hpl | hpr
        · have hb := hleft hpl
          simp only [List.length_eq_zero] at hb
          simp [hb]
        · have hq : wordCharAt n ((u ++ w).length + 3) = wordCharAt r4 0 := by
            rw [hn_eq, wordCharAt_append_right (u ++ w) (c :: c2 :: c3 :: r4) 3]
            rfl
          rw [hq] at hpr
          cases r4 with
          | nil => simp [wordCharAt] at hpr
          | cons h0 r5 =>
            rw [wordCharAt_zero (h0 :: r5) h0 rfl] at hpr
            have haf : afterOk (h0 :: (r5 ++ tail)) = false := by
              simp [afterOk, hpr]
            simp [haf]
  · rw [if_neg hA]
    by_cases hO : c.toLower = 'o'
    · rw [if_pos hO]
      cases r2 with
      | nil =>
        cases tail with
        | nil => rfl
        | cons t0 ts =>
          have ht0 := htail
          simp only [tailOkB, Bool.and_eq_true, Bool.not_eq_true',
            decide_eq_false_iff_not] at ht0
          have hr0 : decide (t0.toLower = 'r') = false := by
            simp [ht0.2]
          simp [hr0]
      | cons c2 r3 =>
        by_cases hr2 : c2.toLower = 'r'
        case neg => simp [hr2]
        have hdropn : n.drop (u ++ w).length = c :: c2 :: r3 := by
          rw [hn_eq]
          exact List.drop_left _ _
        have hao : andOrAt n (u ++ w).length = some 2 := by
          unfold andOrAt
          rw [hdropn]
          have hnota : ¬ (((c :: c2 :: r3).take 3).map Char.toLower = ['a', 'n', 'd']) := by
            cases r3 <;> simp [hO]
          rw [if_neg hnota]
          simp [hO, hr2]
        have hilt : (u ++ w).length < n.length := by
          rw [hn_eq]
          simp
        have hp := hprot (u ++ w).length 2 hao hilt
        unfold protectedAt at hp
        rw [Bool.or_eq_true] at hp
        rcases hp with hpl | hpr
        · have hb := hleft hpl
          simp only [List.length_eq_zero] at hb
          simp [hb]
        · have hq : wordCharAt n ((u ++ w).length + 2) = wordCharAt r3 0 := by
            rw [hn_eq, wordCharAt_append_right (u ++ w) (c :: c2 :: r3) 2]
            rfl
          rw [hq] at hpr
          cases r3 with
          | nil => simp [wordCharAt] at hpr
          | cons h0 r5 =>
            rw [wordCharAt_zero (h0 :: r5) h0 rfl] at hpr
            have haf : afterOk (h0 :: (r5 ++ tail)) = false := by
              simp [afterOk, hpr]
            simp [haf]
    · rw [if_neg hO]

/-! ### Helper lemmas: scanner steps -/

theorem splitGo_match_none (f : Nat) (prev : Option Char) (cur : List Char) (c : Char)
    (rest : List Char) (hm : matchLen prev (c :: rest) = none) :
    splitGo (f + 1) prev cur (c :: rest) = splitGo f (some c) (c :: cur) rest := by
  conv_lhs => rw [splitGo]
  rw [hm]

theorem splitGo_match_some (f : Nat) (prev : Option Char) (cur : List Char) (c : Char)
    (rest : List Char) (len : Nat) (hm : matchLen prev (c :: rest) = some len) :
    splitGo (f + 1) prev cur (c :: rest)
      = cur.reverse :: splitGo f ((c :: rest).take len).getLast? [] ((c :: rest).drop len) := by
  conv_lhs => rw [splitGo]
  rw [hm]

theorem splitGo_through_name (n : List Char) (hn : goodNameB n = true)
    (tail : List Char) (htail : tailOkB tail = true) :
    ∀ (r u : List Char) (prev0 : Option Char) (cur : List Char) (fuel : Nat),
      n = u ++ r → r ≠ [] → (r ++ tail).length ≤ fuel →
      splitGo fuel (prevAt u prev0) cur (r ++ tail)
        = splitGo tail.length (prevAt n prev0) (r.reverse ++ cur) tail := by
  intro r
  induction r with
  | nil =>
    intro u prev0 cur fuel _ hr _
    exact absurd rfl hr
  | cons c r2 ih =>
    intro u prev0 cur fuel hur hr hfuel
    have hm : matchLen (prevAt u prev0) ((c :: r2) ++ tail) = none :=
      matchLen_none_in_name n hn tail htail u (c :: r2) prev0 hur (by simp)
    obtain ⟨f, rfl⟩ : ∃ f, fuel = f + 1 := ⟨fuel - 1, by simp at hfuel; omega⟩
    simp only [List.cons_append] at hm ⊢
    rw [splitGo_match_none f (prevAt u prev0) cur c (r2 ++ tail) hm]
    cases r2 with
    | nil =>
      have hnl : n.getLast? = some c := by
        rw [hur, List.getLast?_append]
        rfl
      have hpn : prevAt n prev0 = some c := by
        unfold prevAt
        rw [hnl]
      rw [hpn]
      simp only [List.nil_append, List.reverse_cons, List.reverse_nil]
      exact splitGo_fuel_congr f tail tail.length (some c) (c :: cur)
        (by simp at hfuel; omega) (Nat.le_refl _)
    | cons c2 r3 =>
      have hpa : prevAt (u ++ [c]) prev0 = some c := by
        unfold prevAt
        rw [List.getLast?_concat]
      have hgoal := ih (u ++ [c]) prev0 (c :: cur) f
        (by rw [hur]; simp) (by simp) (by simp at hfuel ⊢; omega)
      rw [hpa] at hgoal
      simp only [List.cons_append, List.append_eq] at hgoal ⊢
      rw [hgoal]
      simp

theorem splitGo_at_delim (ws1 : List Char) (core : DCore) (ws2 : List Char)
    (hd : delimOkB ⟨ws1, core, ws2⟩ = true) (prev : Option Char) (cur : List Char)
    (c0 : Char) (hc0 : isWs c0 = false) (rest2 : List Char) (fuel : Nat)
    (hfuel : (renderDelim ⟨ws1, core, ws2⟩ ++ c0 :: rest2).length ≤ fuel) :
    splitGo fuel prev cur (renderDelim ⟨ws1, core, ws2⟩ ++ c0 :: rest2)
      = cur.reverse :: splitGo (c0 :: rest2).length
          (renderDelim ⟨ws1, core, ws2⟩).getLast? [] (c0 :: rest2) := by
  have hm := matchLen_delim ws1 core ws2 hd prev c0 hc0 rest2
  obtain ⟨b, rd, hrd⟩ : ∃ b rd, renderDelim ⟨ws1, core, ws2⟩ = b :: rd := by
    cases hc : renderDelim ⟨ws1, core, ws2⟩ with
    | nil =>
      exfalso
      cases core <;> simp [renderDelim, renderCore] at hc
    | cons b rd => exact ⟨b, rd, rfl⟩
  obtain ⟨f, rfl⟩ : ∃ f, fuel = f + 1 := by
    refine ⟨fuel - 1, ?_⟩
    rw [hrd] at hfuel
    simp at hfuel
    omega
  rw [hrd] at hm ⊢
  simp only [List.cons_append] at hm ⊢
  rw [splitGo_match_some f prev cur b (rd ++ c0 :: rest2) (b :: rd).length hm]
  have ht : (b :: (rd ++ c0 :: rest2)).take (b :: rd).length = b :: rd := by
    simp
  have hdp : (b :: (rd ++ c0 :: rest2)).drop (b :: rd).length = c0 :: rest2 := by
    simp
  rw [ht, hdp]
  congr 1
  refine splitGo_fuel_congr f (c0 :: rest2) (c0 :: rest2).length _ [] ?_ (Nat.le_refl _)
  rw [hrd] at hfuel
  simp at hfuel ⊢
  omega

/-! ### Helper lemmas: a rendered lender list has no closing parenthesis -/

theorem renderCore_no_rparen (core : DCore) (hc : coreOkB core = true) :
    ∀ x ∈ renderCore core, x ≠ ')' := by
  cases core with
  | comma => intro x hx; simp [renderCore] at hx; subst hx; decide
  | slash => intro x hx; simp [renderCore] at hx; subst hx; decide
  | amp => intro x hx; simp [renderCore] at hx; subst hx; decide
  | plus => intro x hx; simp [renderCore] at hx; subst hx; decide
  | wordAnd c1 c2 c3 =>
    simp only [coreOkB, Bool.and_eq_true, decide_eq_true_eq] at hc
    intro x hx
    simp only [renderCore, List.mem_cons, List.not_mem_nil, or_false] at hx
    rcases hx with h | h | h
    · rw [h]; exact ne_rparen_of_toLower c1 'a' hc.1.1 (by decide)
    · rw [h]; exact ne_rparen_of_toLower c2 'n' hc.1.2 (by decide)
    · rw [h]; exact ne_rparen_of_toLower c3 'd' hc.2 (by decide)
  | wordOr c1 c2 =>
    simp only [coreOkB, Bool.and_eq_true, decide_eq_true_eq] at hc
    intro x hx
    simp only [renderCore, List.mem_cons, List.not_mem_nil, or_false] at hx
    rcases hx with h | h
    · rw [h]; exact ne_rparen_of_toLower c1 'o' hc.1 (by decide)
    · rw [h]; exact ne_rparen_of_toLower c2 'r' hc.2 (by decide)

theorem renderDelim_no_rparen (ws1 : List Char) (core : DCore) (ws2 : List Char)
    (hd : delimOkB ⟨ws1, core, ws2⟩ = true) :
    ∀ x ∈ renderDelim ⟨ws1, core, ws2⟩, x ≠ ')' := by
  obtain ⟨h1, h2, h3, _⟩ := delimOkB_spec ws1 core ws2 hd
  intro x hx
  simp only [renderDelim, List.mem_append] at hx
  rcases hx with (hx | hx) | hx
  · exact ne_rparen_of_ws x (h1 x hx)
  · exact renderCore_no_rparen core h3 x hx
  · exact ne_rparen_of_ws x (h2 x hx)

theorem renderTail_no_rparen (rest : List (Delim × List Char))
    (hrest : ∀ p ∈ rest, delimOkB p.1 = true ∧ goodNameB p.2 = true) :
    ∀ x ∈ renderTail rest, x ≠ ')' := by
  induction rest with
  | nil => intro x hx; simp [renderTail] at hx
  | cons p rest2 ih =>
    obtain ⟨d, n1⟩ := p
    obtain ⟨ws1, core, ws2⟩ := d
    intro x hx
    simp only [renderTail, List.mem_append] at hx
    rcases hx with (hx | hx) | hx
    · exact renderDelim_no_rparen ws1 core ws2
        (hrest (⟨ws1, core, ws2⟩, n1) (List.mem_cons_self _ _)).1 x hx
    · exact ((goodNameB_spec n1
        (hrest (⟨ws1, core, ws2⟩, n1) (List.mem_cons_self _ _)).2).2.1 x hx).2.2
    · exact ih (fun q hq => hrest q (by simp [hq])) x hx

theorem renderQuery_no_rparen (n0 : List Char) (rest : List (Delim × List Char))
    (hn : goodNameB n0 = true)
    (hrest : ∀ p ∈ rest, delimOkB p.1 = true ∧ goodNameB p.2 = true) :
    ∀ x ∈ renderQuery n0 rest, x ≠ ')' := by
  intro x hx
  simp only [renderQuery, List.mem_append] at hx
  rcases hx with hx | hx
  · exact ((goodNameB_spec n0 hn).2.1 x hx).2.2
  · exact renderTail_no_rparen rest hrest x hx

/-! ### Helper lemmas: scanning a whole rendered lender list -/

theorem splitGo_render (rest : List (Delim × List Char)) :
    ∀ (n0 : List Char) (prev0 : Option Char) (cur : List Char) (fuel : Nat),
      goodNameB n0 = true →
      (∀ p ∈ rest, delimOkB p.1 = true ∧ goodNameB p.2 = true) →
      (n0 ++ renderTail rest).length ≤ fuel →
      splitGo fuel prev0 cur (n0 ++ renderTail rest)
        = (cur.reverse ++ n0) :: rest.map (fun p => p.2) := by
  induction rest with
  | nil =>
    intro n0 prev0 cur fuel hn _ hfuel
    have hne : n0 ≠ [] := (goodNameB_spec n0 hn).1
    have h1 := splitGo_through_name n0 hn [] rfl n0 [] prev0 cur fuel (by simp) hne
      (by simpa using hfuel)
    have hp0 : prevAt [] prev0 = prev0 := rfl
    rw [hp0] at h1
    simp only [renderTail, List.append_nil] at h1 ⊢
    rw [h1]
    simp [splitGo]
  | cons p rest2 ih =>
    intro n0 prev0 cur fuel hn hrest hfuel
    obtain ⟨d, n1⟩ := p
    obtain ⟨ws1, core, ws2⟩ := d
    have hd : delimOkB ⟨ws1, core, ws2⟩ = true :=
      (hrest (⟨ws1, core, ws2⟩, n1) (List.mem_cons_self _ _)).1
    have hn1 : goodNameB n1 = true :=
      (hrest (⟨ws1, core, ws2⟩, n1) (List.mem_cons_self _ _)).2
    have hne0 : n0 ≠ [] := (goodNameB_spec n0 hn).1
    obtain ⟨c0, n1t, rfl⟩ : ∃ a t, n1 = a :: t := by
      cases n1 with
      | nil => exact absurd rfl (goodNameB_spec [] hn1).1
      | cons a t => exact ⟨a, t, rfl⟩
    have hc0 : isWs c0 = false := (goodNameB_spec (c0 :: n1t) hn1).2.2.1 c0 rfl
    have hT : renderTail ((⟨ws1, core, ws2⟩, c0 :: n1t) :: rest2)
        = renderDelim ⟨ws1, core, ws2⟩ ++ (c0 :: (n1t ++ renderTail rest2)) := by
      simp [renderTail]
    have htailok :
        tailOkB (renderDelim ⟨ws1, core, ws2⟩ ++ (c0 :: (n1t ++ renderTail rest2))) = true :=
      tailOkB_delim ws1 core ws2 hd _
    rw [hT] at hfuel ⊢
    have h1 := splitGo_through_name n0 hn
      (renderDelim ⟨ws1, core, ws2⟩ ++ (c0 :: (n1t ++ renderTail rest2))) htailok
      n0 [] prev0 cur fuel (by simp) hne0 hfuel
    have hp0 : prevAt [] prev0 = prev0 := rfl
    rw [hp0] at h1
    rw [h1]
    rw [splitGo_at_delim ws1 core ws2 hd (prevAt n0 prev0) (n0.reverse ++ cur) c0 hc0
      (n1t ++ renderTail rest2) _ (Nat.le_refl _)]
    have h3 := ih (c0 :: n1t) ((renderDelim ⟨ws1, core, ws2⟩).getLast?) []
      (c0 :: (n1t ++ renderTail rest2)).length hn1
      (fun q hq => hrest q (by simp [hq])) (by simp)
    simp only [List.cons_append] at h3
    rw [h3]
    simp

/-! ### C1: token recovery from a joined lender list -/

/-- C1 (amended): joining well-behaved names (nonempty, no parentheses, no
single-character delimiters, no edge whitespace, the words and/or only
adjacent to a word character) with supported delimiters whose word cores
carry whitespace on both sides, then parenthesizing, makes
`parse_lenders_and_question` recover exactly the names, in order, with an
empty question. -/
theorem parse_lenders_recovers_names (n0 : List Char) (rest : List (Delim × List Char))
    (hn : goodNameB n0 = true)
    (hrest : ∀ p ∈ rest, delimOkB p.1 = true ∧ goodNameB p.2 = true) :
    parse_lenders_and_question ('(' :: (renderQuery n0 rest ++ [')']))
      = (n0 :: rest.map (fun p => p.2), []) := by
  have hne : renderQuery n0 rest ≠ [] := by
    have h0 : n0 ≠ [] := (goodNameB_spec n0 hn).1
    simp only [renderQuery]
    intro e
    rw [List.append_eq_nil] at e
    exact h0 e.1
  have hnorp : ∀ x ∈ renderQuery n0 rest, x ≠ ')' := renderQuery_no_rparen n0 rest hn hrest
  have hfind := findGroupGo_found [] [] (renderQuery n0 rest) [] (by simp) hne hnorp
  unfold parse_lenders_and_question
  rw [show ('(' :: (renderQuery n0 rest ++ [')']))
      = [] ++ '(' :: (renderQuery n0 rest ++ ')' :: []) from rfl]
  rw [hfind]
  have hsplit : splitPat (renderQuery n0 rest) = n0 :: rest.map (fun p => p.2) := by
    unfold splitPat
    have := splitGo_render rest n0 none [] (renderQuery n0 rest).length hn hrest
      (by simp [renderQuery])
    simpa [renderQuery] using this
  have htok : tokenizeLenders (renderQuery n0 rest) = n0 :: rest.map (fun p => p.2) := by
    unfold tokenizeLenders
    rw [hsplit]
    have hmap : (n0 :: rest.map (fun p => p.2)).map pyStrip
        = n0 :: rest.map (fun p => p.2) := by
      rw [List.map_cons]
      have hstrip0 : pyStrip n0 = n0 := by
        obtain ⟨_, _, hh, hl, _⟩ := goodNameB_spec n0 hn
        exact pyStrip_eq_self n0 hh hl
      rw [hstrip0, List.map_map]
      congr 1
      refine List.map_congr_left ?_
      intro p hp
      obtain ⟨_, _, hh, hl, _⟩ := goodNameB_spec p.2 (hrest p hp).2
      exact pyStrip_eq_self p.2 hh hl
    rw [hmap]
    rw [List.filter_eq_self.mpr]
    intro a ha
    simp only [List.mem_cons, List.mem_map] at ha
    rcases ha with rfl | ⟨q, hq, rfl⟩
    · simp [List.isEmpty_eq_false.mpr (goodNameB_spec a hn).1]
    · simp [List.isEmpty_eq_false.mpr (goodNameB_spec q.2 (hrest q hq).2).1]
  simp [htok, pyStrip, rstrip]

/-- C1 counterexample to the claim as stated: the word delimiter `and` with
no surrounding whitespace (allowed by "optional surrounding whitespace") is
not split, a single name containing a comma is split in two, and a nonempty
name with leading whitespace is not recovered verbatim. -/
theorem parse_lenders_counterexample :
    ("xandy".toList = "x".toList ++ "and".toList ++ "y".toList ∧
      (parse_lenders_and_question "(xandy)".toList).1 = ["xandy".toList] ∧
      (parse_lenders_and_question "(xandy)".toList).1.length ≠ 2) ∧
    ((parse_lenders_and_question "(a,b)".toList).1.length ≠ 1) ∧
    ((parse_lenders_and_question "( x,y)".toList).1 ≠ [" x".toList, "y".toList]) := by
  decide

/-- Witness for C1 (amended) at a concrete three-name list mixing a word
delimiter (with whitespace) and a comma. -/
theorem parse_lenders_recovers_names_witness :
    parse_lenders_and_question
        ('(' :: (renderQuery "acme".toList
            [(⟨[' '], DCore.wordAnd 'a' 'N' 'd', [' ']⟩, "bob co".toList),
             (⟨[], DCore.comma, [' ']⟩, "x1".toList)] ++ [')']))
      = ("acme".toList ::
          [((⟨[' '], DCore.wordAnd 'a' 'N' 'd', [' ']⟩ : Delim), "bob co".toList),
           ((⟨[], DCore.comma, [' ']⟩ : Delim), "x1".toList)].map (fun p => p.2), []) :=
  parse_lenders_recovers_names "acme".toList
    [(⟨[' '], DCore.wordAnd 'a' 'N' 'd', [' ']⟩, "bob co".toList),
     (⟨[], DCore.comma, [' ']⟩, "x1".toList)]
    (by decide) (by decide)

end LexAi
